import Mathlib

/-!
Shallow embedding of the liquidity-mapping repository: exchange connectors
(pagination loops), the idempotent upsert store, and the delta/VWAP/funding
calculator. Numeric values are modelled as rationals, UTC instants as
milliseconds (connector layer) or rational time coordinates in hours
(calculator layer).
-/

namespace LiquidityMapping

/-! ### Stable insertion sort, modelling Python's stable `sorted` / pandas `sort_values` -/

/-- Insert `a` into a sorted list, after all elements strictly below it
(stable: equal keys keep their original relative order). -/
def insertByLt (lt : α → α → Bool) (a : α) : List α → List α
  | [] => [a]
  | b :: bs => if lt b a then b :: insertByLt lt a bs else a :: b :: bs

/-- Stable sort by a strict comparison, modelling Python's `sorted(...)` and
pandas `DataFrame.sort_values`. -/
def isortByLt (lt : α → α → Bool) : List α → List α
  | [] => []
  | a :: as => insertByLt lt a (isortByLt lt as)

theorem insertByLt_perm (lt : α → α → Bool) (a : α) (l : List α) :
    (insertByLt lt a l).Perm (a :: l) := by
  induction l with
  | nil => simp [insertByLt]
  | cons b bs ih =>
    by_cases h : lt b a
    · simpa [insertByLt, h] using ((ih.cons b).trans (List.Perm.swap a b bs))
    · simp [insertByLt, h]

theorem isortByLt_perm (lt : α → α → Bool) (l : List α) :
    (isortByLt lt l).Perm l := by
  induction l with
  | nil => simp [isortByLt]
  | cons a as ih =>
    exact (insertByLt_perm lt a (isortByLt lt as)).trans (ih.cons a)

theorem mem_isortByLt {lt : α → α → Bool} {a : α} {l : List α} :
    a ∈ isortByLt lt l ↔ a ∈ l :=
  (isortByLt_perm lt l).mem_iff

theorem isortByLt_eq_nil_iff {lt : α → α → Bool} {l : List α} :
    isortByLt lt l = [] ↔ l = [] := by
  constructor
  · intro h
    have := (isortByLt_perm lt l).length_eq
    rw [h] at this
    exact List.length_eq_zero.mp this.symm
  · intro h; subst h; rfl

theorem isortByLt_map_sum (lt : α → α → Bool) (f : α → ℚ) (l : List α) :
    ((isortByLt lt l).map f).sum = (l.map f).sum :=
  ((isortByLt_perm lt l).map f).sum_eq

/-- Arithmetic mean of a list of rationals (pandas `Series.mean` on the
values present; `0` on the empty list since `x / 0 = 0` in `ℚ`). -/
def listMean (l : List ℚ) : ℚ := l.sum / l.length

/-! ### Calculator data model (`src/analysis/calculator.py`)

Times at this layer are rational coordinates measured in hours, mirroring
`datetime` arithmetic with `timedelta(hours=...)`. -/

/-- A kline row as the calculator sees it (the columns of the DataFrame built
from `KlineModel` in `calculate_deltas`, plus the model's `symbol`). -/
structure CandleRow where
  exchange : String
  market_type : String
  symbol : String
  open_time : ℚ
  open_ : ℚ
  high : ℚ
  low : ℚ
  close : ℚ
  volume : ℚ
  quote_volume : ℚ
deriving DecidableEq, Repr

/-- An open-interest row as the calculator sees it. -/
structure OIRow where
  exchange : String
  timestamp : ℚ
  open_interest : ℚ
  open_interest_value : ℚ
deriving DecidableEq, Repr

/-- `TimeframeDelta` dataclass: delta values for a single timeframe. -/
structure TimeframeDelta where
  timeframe : String
  price_start : ℚ
  price_end : ℚ
  price_delta : ℚ
  price_delta_pct : ℚ
  volume_total : ℚ
  oi_start : Option ℚ
  oi_end : Option ℚ
  oi_delta : Option ℚ
  vwap : ℚ
deriving DecidableEq, Repr

/-- `ExchangeAnalysis` dataclass: analysis results for one exchange/market. -/
structure ExchangeAnalysis where
  exchange : String
  market_type : String
  timeframe_deltas : List TimeframeDelta
deriving DecidableEq, Repr

/-- `AnalysisResult` dataclass (raw DataFrames kept as the input lists). -/
structure AnalysisResult where
  symbol : String
  start_time : ℚ
  end_time : ℚ
  exchange_analyses : List ExchangeAnalysis
  raw_klines : List CandleRow
  raw_oi : List OIRow
deriving DecidableEq, Repr

/-- `_parse_timeframe`: parse a timeframe string to hours;
`mapping.get(tf, 1)` defaults to 1 hour for unrecognized labels. -/
def parse_timeframe (tf : String) : ℕ :=
  if tf = "1h" then 1
  else if tf = "4h" then 4
  else if tf = "12h" then 12
  else if tf = "24h" then 24
  else 1

/-- `calculate_vwap` (`src/analysis/vwap.py`): 0 on an empty list or zero
total volume, else sum of typical price times volume over total volume. -/
def calculate_vwap (klines : List CandleRow) : ℚ :=
  if klines = [] then 0
  else
    let volsum := (klines.map CandleRow.volume).sum
    if volsum = 0 then 0
    else (klines.map (fun k => (k.high + k.low + k.close) / 3 * k.volume)).sum / volsum

/-- The VWAP formula as written in the spec (section 4.3): the volume-weighted
typical price, defined as 0 when total volume is 0. Stated from the spec text,
to be compared with the implementation. -/
def vwap_spec_formula (klines : List CandleRow) : ℚ :=
  if (klines.map CandleRow.volume).sum = 0 then 0
  else (klines.map (fun k => (k.high + k.low + k.close) / 3 * k.volume)).sum
    / (klines.map CandleRow.volume).sum

/-- The analysis window of the spec (section 4.3): candles whose `open_time`
lies in `[max(start_time, end_time - d), end_time]`, bounds inclusive. Stated
from the spec text, to be compared with the implementation. -/
def spec_window (kl : List CandleRow) (tf : String) (start_time end_time : ℚ) :
    List CandleRow :=
  kl.filter (fun c =>
    decide (max start_time (end_time - (parse_timeframe tf : ℚ)) ≤ c.open_time)
      && decide (c.open_time ≤ end_time))

/-- `_calculate_timeframe_delta`: delta for a single timeframe, `none` when no
candles fall in the window. -/
def calcTimeframeDelta (kl : List CandleRow) (oi : List OIRow) (tf : String)
    (start_time end_time : ℚ) : Option TimeframeDelta :=
  let hours := parse_timeframe tf
  let tf_start0 := end_time - (hours : ℚ)
  let tf_start := if tf_start0 < start_time then start_time else tf_start0
  let tf_klines := isortByLt (fun a b => decide (a.open_time < b.open_time))
    (kl.filter (fun c =>
      decide (tf_start ≤ c.open_time) && decide (c.open_time ≤ end_time)))
  if hne : tf_klines = [] then none
  else
    let first := tf_klines.head hne
    let lastc := tf_klines.getLast hne
    let price_start := first.open_
    let price_end := lastc.close
    let price_delta := price_end - price_start
    let price_delta_pct := if price_start ≠ 0 then price_delta / price_start * 100 else 0
    let volume_total := (tf_klines.map CandleRow.volume).sum
    let tpv := (tf_klines.map (fun c => (c.high + c.low + c.close) / 3 * c.volume)).sum
    let vwap := if volume_total > 0 then tpv / volume_total else 0
    let oiTriple : Option ℚ × Option ℚ × Option ℚ :=
      if oi = [] then (none, none, none)
      else
        let tf_oi := isortByLt (fun a b => decide (a.timestamp < b.timestamp))
          (oi.filter (fun o =>
            decide (tf_start ≤ o.timestamp) && decide (o.timestamp ≤ end_time)))
        if hoi : tf_oi = [] then (none, none, none)
        else
          (some (tf_oi.head hoi).open_interest,
           some (tf_oi.getLast hoi).open_interest,
           some ((tf_oi.getLast hoi).open_interest - (tf_oi.head hoi).open_interest))
    some
      { timeframe := tf
        price_start := price_start
        price_end := price_end
        price_delta := price_delta
        price_delta_pct := price_delta_pct
        volume_total := volume_total
        oi_start := oiTriple.1
        oi_end := oiTriple.2.1
        oi_delta := oiTriple.2.2
        vwap := vwap }

/-! ### Grouping and aggregation (`calculate_deltas`, `calculate_aggregated_deltas`) -/

/-- Lexicographic comparison on character lists (used to model the sorted key
order of pandas `groupby`). -/
def charListLt : List Char → List Char → Bool
  | [], [] => false
  | [], _ :: _ => true
  | _ :: _, [] => false
  | a :: as, b :: bs =>
    if a.toNat < b.toNat then true
    else if b.toNat < a.toNat then false
    else charListLt as bs

/-- Lexicographic comparison on strings. -/
def strLt (a b : String) : Bool := charListLt a.data b.data

/-- The distinct `(exchange, market_type)` keys of a kline set, in the sorted
order pandas `groupby(["exchange", "market_type"])` iterates them. -/
def groupKeys (kl : List CandleRow) : List (String × String) :=
  isortByLt
    (fun a b => strLt a.1 b.1 || (decide (a.1 = b.1) && strLt a.2 b.2))
    ((kl.map (fun c => (c.exchange, c.market_type))).eraseDups)

/-- `calculate_deltas`: delta metrics across timeframes, grouped per
`(exchange, market_type)`; `timeframes = none` defaults to
`["1h", "4h", "12h", "24h"]`. -/
def calculate_deltas (klines : List CandleRow) (oi_data : List OIRow)
    (start_time end_time : ℚ) (timeframes : Option (List String)) :
    AnalysisResult :=
  let tfs := timeframes.getD ["1h", "4h", "12h", "24h"]
  let exchange_analyses := (groupKeys klines).filterMap (fun key =>
    let group := isortByLt (fun a b => decide (a.open_time < b.open_time))
      (klines.filter (fun c =>
        decide (c.exchange = key.1) && decide (c.market_type = key.2)))
    let exchange_oi := oi_data.filter (fun o => decide (o.exchange = key.1))
    let timeframe_deltas := tfs.filterMap (fun tf =>
      calcTimeframeDelta group exchange_oi tf start_time end_time)
    if timeframe_deltas = [] then none
    else some
      { exchange := key.1
        market_type := key.2
        timeframe_deltas := timeframe_deltas })
  { symbol := (klines.head?.map CandleRow.symbol).getD ""
    start_time := start_time
    end_time := end_time
    exchange_analyses := exchange_analyses
    raw_klines := klines
    raw_oi := oi_data }

/-- The per-timeframe body of `calculate_aggregated_deltas`, applied to the
nonempty list of matching deltas for one timeframe label. -/
def aggregateForTimeframe (tf : String) (tf_deltas : List TimeframeDelta) :
    TimeframeDelta :=
  let total_vol := (tf_deltas.map TimeframeDelta.volume_total).sum
  let weighted_price_pct :=
    if total_vol > 0 then
      (tf_deltas.map (fun d => d.price_delta_pct * d.volume_total)).sum / total_vol
    else
      (tf_deltas.map TimeframeDelta.price_delta_pct).sum / tf_deltas.length
  let weighted_vwap :=
    if total_vol > 0 then
      (tf_deltas.map (fun d => d.vwap * d.volume_total)).sum / total_vol
    else
      (tf_deltas.map TimeframeDelta.vwap).sum / tf_deltas.length
  let oi_deltas := tf_deltas.filterMap TimeframeDelta.oi_delta
  let total_oi_delta := if oi_deltas = [] then none else some oi_deltas.sum
  { timeframe := tf
    price_start := 0
    price_end := 0
    price_delta := 0
    price_delta_pct := weighted_price_pct
    volume_total := total_vol
    oi_start := none
    oi_end := none
    oi_delta := total_oi_delta
    vwap := weighted_vwap }

/-- `calculate_aggregated_deltas`: volume-weighted aggregation across all
exchanges of one market type, over the fixed labels `1h, 4h, 12h, 24h`. -/
def calculate_aggregated_deltas (exchange_analyses : List ExchangeAnalysis)
    (market_type : String) : Option (List TimeframeDelta) :=
  let matching := exchange_analyses.filter (fun ea =>
    decide (ea.market_type = market_type))
  if matching = [] then none
  else
    let timeframes := ["1h", "4h", "12h", "24h"]
    let aggregated := timeframes.filterMap (fun tf =>
      let tf_deltas := matching.flatMap (fun ea =>
        ea.timeframe_deltas.filter (fun d => decide (d.timeframe = tf)))
      if tf_deltas = [] then none
      else some (aggregateForTimeframe tf tf_deltas))
    if aggregated = [] then none else some aggregated

/-! ### Funding analysis (`src/analysis/funding.py`) -/

/-- A funding-rate row as the funding analysis sees it. -/
structure FundingRow where
  exchange : String
  funding_time : ℚ
  funding_rate : ℚ
deriving DecidableEq, Repr

/-- The rates a given exchange reports at a given funding time. -/
def ratesAt (df : List FundingRow) (t : ℚ) (ex : String) : List ℚ :=
  (df.filter (fun r => decide (r.funding_time = t) && decide (r.exchange = ex))).map
    FundingRow.funding_rate

/-- One cell row of the pandas pivot (index `funding_time`, columns
`exchange`, values `funding_rate`, `aggfunc="mean"`) followed by
`mean(axis=1)`: the cross-exchange average rate at one timestamp, where each
exchange present contributes the mean of its rows at that timestamp. -/
def perTimestampAvg (df : List FundingRow) (t : ℚ) : ℚ :=
  let exs := ((df.filter (fun r => decide (r.funding_time = t))).map
    FundingRow.exchange).eraseDups
  listMean (exs.map (fun ex => listMean (ratesAt df t ex)))

/-- The distinct funding times of a data set in ascending order (the pivot
index). -/
def fundingTimes (df : List FundingRow) : List ℚ :=
  isortByLt (fun a b => decide (a < b)) ((df.map FundingRow.funding_time).eraseDups)

/-- `get_latest_funding_stats`, restricted to its `avg_rate` and
`annualized_rate` outputs: `none` models the empty-input dict whose values
are `None`; otherwise the rates are averaged across exchanges per timestamp,
then across all timestamps, and annualized as `rate * 3 * 365 * 100`. -/
def get_latest_funding_stats (frs : List FundingRow) : Option (ℚ × ℚ) :=
  if frs = [] then none
  else
    let overall := listMean ((fundingTimes frs).map (perTimestampAvg frs))
    some (overall, overall * 3 * 365 * 100)

/-- Rolling means with `min_periods=1` (pandas `rolling(window=w).mean()`):
entry `i` is the mean of the last `min(w, i+1)` values up to `i`. -/
def rollingMeans (w : ℕ) (xs : List ℚ) : List ℚ :=
  (List.range xs.length).map (fun i => listMean ((xs.take (i + 1)).drop (i + 1 - w)))

/-- `calculate_rolling_avg_funding`: rows of the result DataFrame as
`(funding_time, rolling_avg_rate, annualized_rate)` triples. -/
def calculate_rolling_avg_funding (frs : List FundingRow) (window_periods : ℕ) :
    List (ℚ × ℚ × ℚ) :=
  if frs = [] then []
  else
    let ts := fundingTimes frs
    let avg := ts.map (perTimestampAvg frs)
    let roll := rollingMeans window_periods avg
    (ts.zip roll).map (fun p => (p.1, p.2, p.2 * 3 * 365 * 100))

/-! ### Market data store (`src/db/repository.py`, `src/db/models.py`)

A table is a list of `(unique key, value fields)` rows in insertion order.
`INSERT ... ON CONFLICT DO UPDATE` over the unique constraint processes the
batch row by row: on a key collision the value fields are overwritten and the
key fields left unchanged, otherwise the row is appended. -/

section Store

variable {K V : Type} [DecidableEq K]

/-- Overwrite the value fields of every row carrying key `k`, leaving the key
fields unchanged (the `DO UPDATE SET` arm of the conflict clause). -/
def replaceVal (k : K) (v : V) (s : List (K × V)) : List (K × V) :=
  s.map (fun r => if r.1 = k then (k, v) else r)

/-- One row of an `ON CONFLICT DO UPDATE` insert: overwrite the value at an
existing key, else append a fresh row. -/
def upsertRow (s : List (K × V)) (row : K × V) : List (K × V) :=
  if (s.map Prod.fst).contains row.1 then replaceVal row.1 row.2 s
  else s ++ [row]

/-- A whole upsert statement: the batch applied row by row. -/
def upsertBatch (s : List (K × V)) (batch : List (K × V)) : List (K × V) :=
  batch.foldl upsertRow s

/-- Value lookup by unique key (first matching row). -/
def lookupKey (s : List (K × V)) (k : K) : Option V :=
  (s.find? (fun r => r.1 = k)).map Prod.snd

/-- The value of the last row of a batch carrying a given key, if any. -/
def lastVal : List (K × V) → K → Option V
  | [], _ => none
  | row :: rest, k =>
    match lastVal rest k with
    | some v => some v
    | none => if row.1 = k then some row.2 else none

theorem keys_replaceVal (k : K) (v : V) (s : List (K × V)) :
    (replaceVal k v s).map Prod.fst = s.map Prod.fst := by
  induction s with
  | nil => rfl
  | cons a as ih =>
    by_cases ha : a.1 = k <;> simp [replaceVal, ha] <;>
      simpa [replaceVal] using ih

theorem keys_upsertRow_of_mem {s : List (K × V)} {row : K × V}
    (h : row.1 ∈ s.map Prod.fst) :
    (upsertRow s row).map Prod.fst = s.map Prod.fst := by
  rw [upsertRow, if_pos (by simpa using h)]
  exact keys_replaceVal _ _ _

theorem keys_upsertRow_of_not_mem {s : List (K × V)} {row : K × V}
    (h : row.1 ∉ s.map Prod.fst) :
    (upsertRow s row).map Prod.fst = s.map Prod.fst ++ [row.1] := by
  rw [upsertRow, if_neg (by simpa using h)]
  simp

theorem mem_keys_upsertRow {s : List (K × V)} {row : K × V} {k : K}
    (h : k ∈ s.map Prod.fst) : k ∈ (upsertRow s row).map Prod.fst := by
  by_cases hm : row.1 ∈ s.map Prod.fst
  · rwa [keys_upsertRow_of_mem hm]
  · rw [keys_upsertRow_of_not_mem hm]; exact List.mem_append_left _ h

theorem self_mem_keys_upsertRow (s : List (K × V)) (row : K × V) :
    row.1 ∈ (upsertRow s row).map Prod.fst := by
  by_cases hm : row.1 ∈ s.map Prod.fst
  · rwa [keys_upsertRow_of_mem hm]
  · rw [keys_upsertRow_of_not_mem hm]; simp

theorem nodup_keys_upsertRow {s : List (K × V)} {row : K × V}
    (h : (s.map Prod.fst).Nodup) : ((upsertRow s row).map Prod.fst).Nodup := by
  by_cases hm : row.1 ∈ s.map Prod.fst
  · rwa [keys_upsertRow_of_mem hm]
  · rw [keys_upsertRow_of_not_mem hm]
    simpa [List.nodup_append] using ⟨h, by simpa using hm⟩

theorem mem_keys_upsertBatch {s : List (K × V)} {b : List (K × V)} {k : K}
    (h : k ∈ s.map Prod.fst) : k ∈ (upsertBatch s b).map Prod.fst := by
  induction b generalizing s with
  | nil => exact h
  | cons row rest ih => exact ih (mem_keys_upsertRow h)

theorem batch_mem_keys_upsertBatch {s : List (K × V)} {b : List (K × V)}
    {row : K × V} (h : row ∈ b) :
    row.1 ∈ (upsertBatch s b).map Prod.fst := by
  induction b generalizing s with
  | nil => cases h
  | cons r rest ih =>
    rcases List.mem_cons.mp h with h | h
    · subst h
      show row.1 ∈ (upsertBatch (upsertRow s row) rest).map Prod.fst
      exact mem_keys_upsertBatch (self_mem_keys_upsertRow s row)
    · exact ih h

theorem nodup_keys_upsertBatch {s : List (K × V)} {b : List (K × V)}
    (h : (s.map Prod.fst).Nodup) : ((upsertBatch s b).map Prod.fst).Nodup := by
  induction b generalizing s with
  | nil => exact h
  | cons row rest ih => exact ih (nodup_keys_upsertRow h)

theorem keys_upsertBatch_of_forall_mem {s : List (K × V)} {b : List (K × V)}
    (h : ∀ row ∈ b, row.1 ∈ s.map Prod.fst) :
    (upsertBatch s b).map Prod.fst = s.map Prod.fst := by
  induction b generalizing s with
  | nil => rfl
  | cons row rest ih =>
    have hk := keys_upsertRow_of_mem (h row (List.mem_cons_self _ _))
    rw [upsertBatch, List.foldl_cons, ← upsertBatch, ih, hk]
    intro r hr
    rw [hk]
    exact h r (List.mem_cons_of_mem _ hr)

theorem lookupKey_replaceVal_self {s : List (K × V)} {k : K} (v : V)
    (h : k ∈ s.map Prod.fst) : lookupKey (replaceVal k v s) k = some v := by
  induction s with
  | nil => simp at h
  | cons a as ih =>
    by_cases ha : a.1 = k
    · simp [lookupKey, replaceVal, ha]
    · have h' : k ∈ as.map Prod.fst := by
        rcases List.mem_cons.mp h with h | h
        · exact absurd h.symm ha
        · exact h
      simpa [lookupKey, replaceVal, ha] using ih h'

theorem lookupKey_replaceVal_other {s : List (K × V)} {k k' : K} (v : V)
    (h : k' ≠ k) : lookupKey (replaceVal k v s) k' = lookupKey s k' := by
  induction s with
  | nil => rfl
  | cons a as ih =>
    by_cases ha : a.1 = k
    · have hne : ¬ (k = k') := fun hh => h hh.symm
      have h2 : ¬ (a.1 = k') := by rw [ha]; exact fun hh => h hh.symm
      simp only [replaceVal, List.map_cons, if_pos ha]
      rw [lookupKey, List.find?_cons_of_neg _ (by simpa using hne),
        lookupKey, List.find?_cons_of_neg _ (by simpa using h2)]
      exact ih
    · simp only [replaceVal, List.map_cons, if_neg ha]
      by_cases hak : a.1 = k'
      · simp [lookupKey, hak]
      · rw [lookupKey, List.find?_cons_of_neg _ (by simpa using hak),
          lookupKey, List.find?_cons_of_neg _ (by simpa using hak)]
        exact ih

theorem lookupKey_cons_of_neg {s : List (K × V)} {a : K × V} {k : K}
    (h : ¬ (a.1 = k)) : lookupKey (a :: s) k = lookupKey s k := by
  rw [lookupKey, List.find?_cons_of_neg _ (by simpa using h)]; rfl

theorem lookupKey_append_single (s : List (K × V)) (row : K × V) (k : K) :
    lookupKey (s ++ [row]) k =
      match lookupKey s k with
      | some v => some v
      | none => if row.1 = k then some row.2 else none := by
  induction s with
  | nil => by_cases h : row.1 = k <;> simp [lookupKey, h]
  | cons a as ih =>
    by_cases ha : a.1 = k
    · simp [lookupKey, ha]
    · rw [List.cons_append, lookupKey_cons_of_neg ha, ih,
        lookupKey_cons_of_neg ha]

theorem lookupKey_eq_none_of_not_mem {s : List (K × V)} {k : K}
    (h : k ∉ s.map Prod.fst) : lookupKey s k = none := by
  induction s with
  | nil => rfl
  | cons a as ih =>
    have ha : ¬ (a.1 = k) := fun hh => h (by simp [hh])
    have h' : k ∉ as.map Prod.fst := fun hh => h (List.mem_cons_of_mem _ hh)
    rw [lookupKey, List.find?_cons_of_neg _ (by simpa using ha), ← lookupKey]
    exact ih h'

theorem lookupKey_upsertRow_self (s : List (K × V)) (k : K) (v : V) :
    lookupKey (upsertRow s (k, v)) k = some v := by
  by_cases hm : k ∈ s.map Prod.fst
  · rw [upsertRow, if_pos (by simpa using hm)]
    exact lookupKey_replaceVal_self v hm
  · rw [upsertRow, if_neg (by simpa using hm), lookupKey_append_single,
      lookupKey_eq_none_of_not_mem hm]
    simp

theorem lookupKey_upsertRow_other (s : List (K × V)) (row : K × V) {k : K}
    (hk : k ≠ row.1) : lookupKey (upsertRow s row) k = lookupKey s k := by
  by_cases hm : row.1 ∈ s.map Prod.fst
  · rw [upsertRow, if_pos (by simpa using hm)]
    exact lookupKey_replaceVal_other row.2 hk
  · rw [upsertRow, if_neg (by simpa using hm), lookupKey_append_single]
    have : ¬ (row.1 = k) := fun h => hk h.symm
    cases hcase : lookupKey s k <;> simp [this]

theorem lookupKey_upsertBatch (b : List (K × V)) (s : List (K × V)) (k : K) :
    lookupKey (upsertBatch s b) k =
      match lastVal b k with
      | some v => some v
      | none => lookupKey s k := by
  induction b generalizing s with
  | nil => simp [upsertBatch, lastVal]
  | cons row rest ih =>
    rw [upsertBatch, List.foldl_cons, ← upsertBatch, ih]
    cases hrest : lastVal rest k with
    | some v => simp [lastVal, hrest]
    | none =>
      by_cases h : row.1 = k
      · have : upsertRow s row = upsertRow s (k, row.2) := by
          rw [show row = (k, row.2) from Prod.ext h rfl]
        rw [this, lookupKey_upsertRow_self]
        simp [lastVal, hrest, h]
      · rw [lookupKey_upsertRow_other s row (fun hh => h hh.symm)]
        simp [lastVal, hrest, h]

theorem store_ext : ∀ (s t : List (K × V)),
    s.map Prod.fst = t.map Prod.fst → (s.map Prod.fst).Nodup →
    (∀ k, lookupKey s k = lookupKey t k) → s = t
  | [], [], _, _, _ => rfl
  | [], (r :: t), hkeys, _, _ => by simp at hkeys
  | (r :: s), [], hkeys, _, _ => by simp at hkeys
  | (r :: s), (r' :: t), hkeys, hnd, hlook => by
    have hk : r.1 = r'.1 := by simpa using congrArg (fun l => l.head?) hkeys
    have hkeys' : s.map Prod.fst = t.map Prod.fst :=
      (by simpa using hkeys : r.1 = r'.1 ∧ s.map Prod.fst = t.map Prod.fst).2
    have hv : some r.2 = some r'.2 := by
      have h0 := hlook r.1
      rw [lookupKey, List.find?_cons_of_pos _ (by simp), lookupKey,
        List.find?_cons_of_pos _ (by simp [hk])] at h0
      simpa using h0
    have hnd' : (s.map Prod.fst).Nodup := (List.nodup_cons.mp hnd).2
    have hnotmem : r.1 ∉ s.map Prod.fst := (List.nodup_cons.mp hnd).1
    have htail : s = t := by
      apply store_ext s t hkeys' hnd'
      intro k
      by_cases hkk : k = r.1
      · subst hkk
        rw [lookupKey_eq_none_of_not_mem hnotmem,
          lookupKey_eq_none_of_not_mem (by rw [← hkeys']; exact hnotmem)]
      · have h0 := hlook k
        have h1 : ¬ (r.1 = k) := fun h => hkk h.symm
        have h2 : ¬ (r'.1 = k) := fun h => hkk (hk ▸ h).symm
        rw [lookupKey, List.find?_cons_of_neg _ (by simpa using h1),
          lookupKey, List.find?_cons_of_neg _ (by simpa using h2)] at h0
        exact h0
    have hhead : r = r' := Prod.ext hk (by simpa using hv)
    rw [hhead, htail]

/-- Upserting a batch twice is the same as upserting it once: the second call
changes neither the row count nor any stored value. -/
theorem upsertBatch_idempotent (s : List (K × V)) (b : List (K × V))
    (hnd : (s.map Prod.fst).Nodup) :
    upsertBatch (upsertBatch s b) b = upsertBatch s b := by
  apply store_ext
  · exact keys_upsertBatch_of_forall_mem (fun row hr => batch_mem_keys_upsertBatch hr)
  · exact nodup_keys_upsertBatch (nodup_keys_upsertBatch hnd)
  · intro k
    rw [lookupKey_upsertBatch, lookupKey_upsertBatch]
    cases lastVal b k <;> rfl
end Store

/-! ### Connector data model (`src/connectors/base.py`)

UTC instants at this layer are integer milliseconds since the epoch; the
pagination cursors (`endTime` etc.) are integers since the code computes
`earliest_time - 1`. -/

/-- `MarketType` enum. -/
inductive MarketType where
  | spot
  | perp
deriving DecidableEq, Repr

/-- `MarketType.value`, the string payload of the enum. -/
def MarketType.value : MarketType → String
  | .spot => "spot"
  | .perp => "perp"

/-- `Kline` dataclass of `base.py`. -/
structure Kline where
  exchange : String
  market_type : MarketType
  symbol : String
  interval : String
  open_time : ℕ
  open_ : ℚ
  high : ℚ
  low : ℚ
  close : ℚ
  volume : ℚ
  quote_volume : ℚ
deriving DecidableEq, Repr

/-- `FundingRate` dataclass of `base.py`. -/
structure FundingRateRec where
  exchange : String
  symbol : String
  funding_time : ℕ
  funding_rate : ℚ
deriving DecidableEq, Repr

/-- The key fields of the `uq_kline` unique constraint
(`src/db/models.py`). -/
structure KlineKey where
  exchange : String
  market_type : String
  symbol : String
  interval : String
  open_time : ℕ
deriving DecidableEq, Repr

/-- The value fields of a kline row (overwritten on conflict by
`Repository.upsert_klines`). -/
structure KlineVal where
  open_ : ℚ
  high : ℚ
  low : ℚ
  close : ℚ
  volume : ℚ
  quote_volume : ℚ
deriving DecidableEq, Repr

/-- The key columns of the row dict built in `Repository.upsert_klines`. -/
def Kline.rowKey (k : Kline) : KlineKey :=
  ⟨k.exchange, k.market_type.value, k.symbol, k.interval, k.open_time⟩

/-- The value columns of the row dict built in `Repository.upsert_klines`. -/
def Kline.rowVal (k : Kline) : KlineVal :=
  ⟨k.open_, k.high, k.low, k.close, k.volume, k.quote_volume⟩

/-- `Repository.upsert_klines`: insert the batch with
`ON CONFLICT (exchange, market_type, symbol, interval, open_time) DO UPDATE`
on the value columns. -/
def upsert_klines (s : List (KlineKey × KlineVal)) (klines : List Kline) :
    List (KlineKey × KlineVal) :=
  upsertBatch s (klines.map (fun k => (k.rowKey, k.rowVal)))

/-! ### Connector pagination loops
(`binance.py`, `bybit.py`, `bitget.py`)

A provider is a function from the varying request cursor to the decoded page
(the response list); the fixed request parameters are implicit in the
function. Loops carry explicit fuel and return `none` on fuel exhaustion, so
termination is a provable statement, not an assumption. -/

/-- One raw candle entry of a provider kline page (the array indices the
connectors read: open time in ms and the OHLCV / quote-volume fields). -/
structure RawCandle where
  ts : ℕ
  open_ : ℚ
  high : ℚ
  low : ℚ
  close : ℚ
  volume : ℚ
  quote_volume : ℚ
deriving DecidableEq, Repr

/-- One raw entry of a provider funding-history page. -/
structure RawFunding where
  ts : ℕ
  rate : ℚ
deriving DecidableEq, Repr

/-- Binance `KLINE_LIMIT`. -/
def BINANCE_KLINE_LIMIT : ℕ := 1000

/-- ByBit `KLINE_LIMIT`. -/
def BYBIT_KLINE_LIMIT : ℕ := 1000

/-- The Kline built from one Binance response candle. -/
def binanceMkKline (symbol interval : String) (mt : MarketType)
    (c : RawCandle) : Kline :=
  ⟨"binance", mt, symbol, interval, c.ts, c.open_, c.high, c.low, c.close,
    c.volume, c.quote_volume⟩

/-- The `while True` pagination loop of `BinanceConnector.fetch_klines`: page
backwards moving `endTime` to `earliest_time - 1`, dropping candles before
`start_time`, stopping on an empty or short page or when the cursor crosses
`start_time`. -/
def binanceKlinesLoop (P : Option ℤ → List RawCandle)
    (symbol interval : String) (mt : MarketType) (startMs : Option ℤ) :
    ℕ → Option ℤ → List Kline → Option (List Kline)
  | 0, _, _ => none
  | fuel + 1, endCur, acc =>
    let data := P endCur
    if data = [] then some acc
    else
      let kept := data.filter (fun c =>
        match startMs with
        | some s => decide (¬ ((c.ts : ℤ) < s))
        | none => true)
      let acc' := acc ++ kept.map (binanceMkKline symbol interval mt)
      if data.length < BINANCE_KLINE_LIMIT then some acc'
      else
        let earliest : ℤ := ((data.head?.map RawCandle.ts).getD 0 : ℕ)
        match startMs with
        | some s =>
          if earliest ≤ s then some acc'
          else binanceKlinesLoop P symbol interval mt startMs fuel
            (some (earliest - 1)) acc'
        | none =>
          binanceKlinesLoop P symbol interval mt startMs fuel
            (some (earliest - 1)) acc'

/-- `BinanceConnector.fetch_klines`: run the pagination loop, then yield the
accumulated candles sorted into chronological order. -/
def binanceFetchKlines (P : Option ℤ → List RawCandle)
    (symbol interval : String) (mt : MarketType)
    (startMs endMs : Option ℤ) (fuel : ℕ) : Option (List Kline) :=
  (binanceKlinesLoop P symbol interval mt startMs fuel endMs []).map
    (isortByLt (fun a b => decide (a.open_time < b.open_time)))

/-- ByBit interval translation: `interval_map.get(interval, "60")`. -/
def bybitIntervalOf (interval : String) : String :=
  if interval = "1h" then "60"
  else if interval = "4h" then "240"
  else if interval = "1d" then "D"
  else "60"

/-- The Kline built from one ByBit response candle. -/
def bybitMkKline (symbol interval : String) (mt : MarketType)
    (c : RawCandle) : Kline :=
  ⟨"bybit", mt, symbol, interval, c.ts, c.open_, c.high, c.low, c.close,
    c.volume, c.quote_volume⟩

/-- The pagination loop of `BybitConnector.fetch_klines`: page backwards
moving `end` to `kline_list[-1][0] - 1` (ByBit pages are newest-first, so the
last entry is the oldest), dropping candles before `start_time`. -/
def bybitKlinesLoop (P : Option ℤ → List RawCandle)
    (symbol interval : String) (mt : MarketType) (startMs : Option ℤ) :
    ℕ → Option ℤ → List Kline → Option (List Kline)
  | 0, _, _ => none
  | fuel + 1, endCur, acc =>
    let kline_list := P endCur
    if kline_list = [] then some acc
    else
      let kept := kline_list.filter (fun c =>
        match startMs with
        | some s => decide (¬ ((c.ts : ℤ) < s))
        | none => true)
      let acc' := acc ++ kept.map (bybitMkKline symbol interval mt)
      if kline_list.length < BYBIT_KLINE_LIMIT then some acc'
      else
        let earliest : ℤ := ((kline_list.getLast?.map RawCandle.ts).getD 0 : ℕ)
        match startMs with
        | some s =>
          if earliest ≤ s then some acc'
          else bybitKlinesLoop P symbol interval mt startMs fuel
            (some (earliest - 1)) acc'
        | none =>
          bybitKlinesLoop P symbol interval mt startMs fuel
            (some (earliest - 1)) acc'

/-- `BybitConnector.fetch_klines`: run the loop, then yield
`reversed(all_klines)` as the chronological order. -/
def bybitFetchKlines (P : Option ℤ → List RawCandle)
    (symbol interval : String) (mt : MarketType)
    (startMs endMs : Option ℤ) (fuel : ℕ) : Option (List Kline) :=
  (bybitKlinesLoop P symbol interval mt startMs fuel endMs []).map
    List.reverse

/-- BitGet interval translation: `interval_map.get(interval, "1H")`. -/
def bitgetIntervalOf (interval : String) : String :=
  if interval = "1h" then "1H"
  else if interval = "4h" then "4H"
  else if interval = "1d" then "1D"
  else "1H"

/-- BitGet page limit: `200` on the futures history-candles endpoint,
`KLINE_LIMIT` (1000) on spot. -/
def bitgetPageLimit (mt : MarketType) : ℕ :=
  if mt = MarketType.spot then 1000 else 200

/-- The Kline built from one BitGet response candle. -/
def bitgetMkKline (symbol interval : String) (mt : MarketType)
    (c : RawCandle) : Kline :=
  ⟨"bitget", mt, symbol, interval, c.ts, c.open_, c.high, c.low, c.close,
    c.volume, c.quote_volume⟩

/-- The pagination loop of `BitgetConnector.fetch_klines`: page backwards
moving `endTime` to `kline_list[0][0] - 1` (BitGet pages are chronological,
so entry `[0]` is the oldest), dropping candles before `start_time`. -/
def bitgetKlinesLoop (P : Option ℤ → List RawCandle)
    (symbol interval : String) (mt : MarketType) (startMs : Option ℤ) :
    ℕ → Option ℤ → List Kline → Option (List Kline)
  | 0, _, _ => none
  | fuel + 1, endCur, acc =>
    let kline_list := P endCur
    if kline_list = [] then some acc
    else
      let kept := kline_list.filter (fun c =>
        match startMs with
        | some s => decide (¬ ((c.ts : ℤ) < s))
        | none => true)
      let acc' := acc ++ kept.map (bitgetMkKline symbol interval mt)
      if kline_list.length < bitgetPageLimit mt then some acc'
      else
        let earliest : ℤ := ((kline_list.head?.map RawCandle.ts).getD 0 : ℕ)
        match startMs with
        | some s =>
          if earliest ≤ s then some acc'
          else bitgetKlinesLoop P symbol interval mt startMs fuel
            (some (earliest - 1)) acc'
        | none =>
          bitgetKlinesLoop P symbol interval mt startMs fuel
            (some (earliest - 1)) acc'

/-- `BitgetConnector.fetch_klines`: run the loop, then yield
`reversed(all_klines)`. -/
def bitgetFetchKlines (P : Option ℤ → List RawCandle)
    (symbol interval : String) (mt : MarketType)
    (startMs endMs : Option ℤ) (fuel : ℕ) : Option (List Kline) :=
  (bitgetKlinesLoop P symbol interval mt startMs fuel endMs []).map
    List.reverse

/-- Binance OI interval translation: `period_map.get(interval, "1h")`. -/
def binanceOiPeriodOf (interval : String) : String :=
  if interval = "1h" then "1h"
  else if interval = "4h" then "4h"
  else if interval = "1d" then "1d"
  else "1h"

/-- The pagination loop of `BinanceConnector.fetch_funding_history`: page
forwards moving `startTime` to `data[-1]["fundingTime"] + 1`, yielding every
entry of every page, stopping on an empty or short page. -/
def binanceFundingLoop (P : Option ℤ → List RawFunding) (symbol : String) :
    ℕ → Option ℤ → List FundingRateRec → Option (List FundingRateRec)
  | 0, _, _ => none
  | fuel + 1, startCur, acc =>
    let data := P startCur
    if data = [] then some acc
    else
      let acc' := acc ++ data.map
        (fun it => (⟨"binance", symbol, it.ts, it.rate⟩ : FundingRateRec))
      if data.length < BINANCE_KLINE_LIMIT then some acc'
      else
        let last : ℤ := ((data.getLast?.map RawFunding.ts).getD 0 : ℕ)
        binanceFundingLoop P symbol fuel (some (last + 1)) acc'

/-- BitGet funding page size (`pageSize`, max 100). -/
def BITGET_FUNDING_PAGE_SIZE : ℕ := 100

/-- The pagination loop of `BitgetConnector.fetch_funding_history`: page
numbers increase by one, entries outside `[start, end]` are dropped, and the
loop stops on an empty or short page. -/
def bitgetFundingLoop (P : ℕ → List RawFunding) (symbol : String)
    (startMs endMs : Option ℤ) :
    ℕ → ℕ → List FundingRateRec → Option (List FundingRateRec)
  | 0, _, _ => none
  | fuel + 1, page_no, acc =>
    let funding_list := P page_no
    if funding_list = [] then some acc
    else
      let kept := funding_list.filter (fun it =>
        (match startMs with
         | some s => decide (¬ ((it.ts : ℤ) < s))
         | none => true)
        && (match endMs with
            | some e => decide (¬ ((it.ts : ℤ) > e))
            | none => true))
      let acc' := acc ++ kept.map (fun it => (⟨"bitget", symbol, it.ts, it.rate⟩ : FundingRateRec))
      if funding_list.length < BITGET_FUNDING_PAGE_SIZE then some acc'
      else bitgetFundingLoop P symbol startMs endMs fuel (page_no + 1) acc'

/-- `BitgetConnector.fetch_funding_history`: run the loop from page 1, then
yield the records sorted by funding time. -/
def bitgetFetchFunding (P : ℕ → List RawFunding) (symbol : String)
    (startMs endMs : Option ℤ) (fuel : ℕ) : Option (List FundingRateRec) :=
  (bitgetFundingLoop P symbol startMs endMs fuel 1 []).map
    (isortByLt (fun a b => decide (a.funding_time < b.funding_time)))

/-- ByBit `OI_LIMIT` (also the funding-history page limit). -/
def BYBIT_OI_LIMIT : ℕ := 200

/-- The pagination loop of `BybitConnector.fetch_funding_history`: page
backwards moving `endTime` to `funding_list[-1]["fundingRateTimestamp"] - 1`
(ByBit pages are newest-first), dropping entries before `start_time`,
stopping on an empty or short page or when the cursor crosses
`start_time`. -/
def bybitFundingLoop (P : Option ℤ → List RawFunding) (symbol : String)
    (startMs : Option ℤ) :
    ℕ → Option ℤ → List FundingRateRec → Option (List FundingRateRec)
  | 0, _, _ => none
  | fuel + 1, endCur, acc =>
    let funding_list := P endCur
    if funding_list = [] then some acc
    else
      let kept := funding_list.filter (fun it =>
        match startMs with
        | some s => decide (¬ ((it.ts : ℤ) < s))
        | none => true)
      let acc' := acc ++ kept.map
        (fun it => (⟨"bybit", symbol, it.ts, it.rate⟩ : FundingRateRec))
      if funding_list.length < BYBIT_OI_LIMIT then some acc'
      else
        let earliest : ℤ := ((funding_list.getLast?.map RawFunding.ts).getD 0 : ℕ)
        match startMs with
        | some s =>
          if earliest ≤ s then some acc'
          else bybitFundingLoop P symbol startMs fuel (some (earliest - 1)) acc'
        | none =>
          bybitFundingLoop P symbol startMs fuel (some (earliest - 1)) acc'

/-- `BybitConnector.fetch_funding_history`: run the loop, then yield
`reversed(all_funding)` as the chronological order. -/
def bybitFetchFunding (P : Option ℤ → List RawFunding) (symbol : String)
    (startMs endMs : Option ℤ) (fuel : ℕ) : Option (List FundingRateRec) :=
  (bybitFundingLoop P symbol startMs fuel endMs []).map List.reverse

/-- Binance `OI_LIMIT`. -/
def BINANCE_OI_LIMIT : ℕ := 500

/-- One raw entry of a Binance open-interest history page (the fields the
connector reads: `timestamp`, `sumOpenInterest`, `sumOpenInterestValue`). -/
structure RawOI where
  ts : ℕ
  sum_open_interest : ℚ
  sum_open_interest_value : ℚ
deriving DecidableEq, Repr

/-- `OpenInterest` dataclass of `base.py`. -/
structure OpenInterestRec where
  exchange : String
  symbol : String
  timestamp : ℕ
  open_interest : ℚ
  open_interest_value : ℚ
deriving DecidableEq, Repr

/-- The pagination loop of `BinanceConnector.fetch_open_interest_history`:
page forwards moving `startTime` to `data[-1]["timestamp"] + 1`, yielding
every entry of every page, stopping on an empty or short page. -/
def binanceOiLoop (P : Option ℤ → List RawOI) (symbol : String) :
    ℕ → Option ℤ → List OpenInterestRec → Option (List OpenInterestRec)
  | 0, _, _ => none
  | fuel + 1, startCur, acc =>
    let data := P startCur
    if data = [] then some acc
    else
      let acc' := acc ++ data.map (fun it =>
        (⟨"binance", symbol, it.ts, it.sum_open_interest,
          it.sum_open_interest_value⟩ : OpenInterestRec))
      if data.length < BINANCE_OI_LIMIT then some acc'
      else
        let last : ℤ := ((data.getLast?.map RawOI.ts).getD 0 : ℕ)
        binanceOiLoop P symbol fuel (some (last + 1)) acc'

/-- `BinanceConnector.fetch_open_interest_history`: run the loop from the
optional `startTime`; entries are yielded in provider page order. -/
def binanceFetchOpenInterest (P : Option ℤ → List RawOI) (symbol : String)
    (startMs : Option ℤ) (fuel : ℕ) : Option (List OpenInterestRec) :=
  binanceOiLoop P symbol fuel startMs []

/-! ### Theorems -/

/-- A two-candle window matching the spec's VWAP example:
`(high, low, close, volume) = (10, 8, 9, 100)` and `(12, 10, 11, 50)`. -/
def vwapExampleWindow : List CandleRow :=
  [⟨"binance", "spot", "COAIUSDT", 0, 9, 10, 8, 9, 100, 0⟩,
   ⟨"binance", "spot", "COAIUSDT", 1, 10, 12, 10, 11, 50, 0⟩]

/-- A window whose total volume is zero. -/
def zeroVolumeWindow : List CandleRow :=
  [⟨"binance", "spot", "COAIUSDT", 0, 9, 10, 8, 9, 0, 0⟩]

theorem tf_start_eq_max (s e d : ℚ) :
    (if e - d < s then s else e - d) = max s (e - d) := by
  by_cases h : e - d < s
  · rw [if_pos h, max_eq_left h.le]
  · rw [if_neg h, max_eq_right (le_of_not_lt h)]

theorem code_window_eq_spec (kl : List CandleRow) (tf : String) (s e : ℚ) :
    kl.filter (fun c =>
      decide ((if e - (parse_timeframe tf : ℚ) < s then s
               else e - (parse_timeframe tf : ℚ)) ≤ c.open_time)
        && decide (c.open_time ≤ e)) = spec_window kl tf s e := by
  rw [spec_window]
  simp only [tf_start_eq_max]


/-- C5: for every window, `calculate_vwap` equals the spec formula
(volume-weighted typical price, 0 at zero total volume); the spec's two-candle
example evaluates to `1450/150 = 29/3`, within `1e-3` of `9.667`, and a
zero-volume window gives 0; the timeframe-delta calculator computes the same
spec vwap over its window whenever volumes are nonnegative. -/
theorem vwap_matches_spec :
    (∀ kl : List CandleRow, calculate_vwap kl = vwap_spec_formula kl) ∧
    calculate_vwap vwapExampleWindow = 1450 / 150 ∧
    |(1450 : ℚ) / 150 - 9667 / 1000| ≤ 1 / 1000 ∧
    calculate_vwap zeroVolumeWindow = 0 ∧
    (∀ (kl : List CandleRow) (oi : List OIRow) (tf : String) (s e : ℚ),
      (∀ c ∈ kl, 0 ≤ c.volume) →
      (calcTimeframeDelta kl oi tf s e).elim True
        (fun δ => δ.vwap = vwap_spec_formula (spec_window kl tf s e))) := by
  refine ⟨?_, ?_, ?_, ?_, ?_⟩
  · intro kl
    by_cases h : kl = []
    · subst h; simp [calculate_vwap, vwap_spec_formula]
    · simp [calculate_vwap, vwap_spec_formula, h]
  · norm_num [calculate_vwap, vwapExampleWindow]
    simp
  · rw [abs_le]; constructor <;> norm_num
  · norm_num [calculate_vwap, zeroVolumeWindow]
  · intro kl oi tf s e hvol
    have hw := code_window_eq_spec kl tf s e
    simp only [calcTimeframeDelta]
    rw [hw]
    by_cases hc : isortByLt (fun a b => decide (a.open_time < b.open_time))
        (spec_window kl tf s e) = []
    · rw [dif_pos hc]
      exact trivial
    · rw [dif_neg hc]
      simp only [Option.elim_some]
      have hsum := isortByLt_map_sum
        (fun a b => decide (a.open_time < b.open_time)) CandleRow.volume
        (spec_window kl tf s e)
      have htpv := isortByLt_map_sum
        (fun a b => decide (a.open_time < b.open_time))
        (fun c => (c.high + c.low + c.close) / 3 * c.volume)
        (spec_window kl tf s e)
      rw [vwap_spec_formula, hsum, htpv]
      have hnn : 0 ≤ ((spec_window kl tf s e).map CandleRow.volume).sum := by
        apply List.sum_nonneg
        intro x hx
        obtain ⟨c, hcm, rfl⟩ := List.mem_map.mp hx
        exact hvol c (List.mem_of_mem_filter hcm)
      by_cases hpos : 0 < ((spec_window kl tf s e).map CandleRow.volume).sum
      · rw [if_pos hpos, if_neg (ne_of_gt hpos)]
      · have hz : ((spec_window kl tf s e).map CandleRow.volume).sum = 0 :=
          le_antisymm (le_of_not_lt hpos) hnn
        rw [if_neg hpos, if_pos hz]

/-- Witness for C5 instantiating the calculator-window conjunct at the
two-candle example with the `1h` window over `[0, 2]`. -/
theorem vwap_matches_spec_witness :
    (∀ c ∈ vwapExampleWindow, 0 ≤ c.volume) ∧
    (calcTimeframeDelta vwapExampleWindow [] "1h" 0 2).elim True
      (fun δ => δ.vwap = vwap_spec_formula
        (spec_window vwapExampleWindow "1h" 0 2)) :=
  ⟨by decide,
   vwap_matches_spec.2.2.2.2 vwapExampleWindow [] "1h" 0 2 (by decide)⟩

/-- C9: every interval-translation map in the calculator and the connectors
sends an unrecognized label to the one-hour granularity (`_parse_timeframe`
to 1 hour, ByBit to `"60"` minutes, BitGet to `"1H"`, Binance OI to
`"1h"`). -/
theorem unrecognized_interval_defaults :
    (∀ tf : String, tf ≠ "1h" → tf ≠ "4h" → tf ≠ "12h" → tf ≠ "24h" →
      parse_timeframe tf = 1) ∧
    (∀ iv : String, iv ≠ "1h" → iv ≠ "4h" → iv ≠ "1d" →
      bybitIntervalOf iv = "60" ∧ bitgetIntervalOf iv = "1H" ∧
        binanceOiPeriodOf iv = "1h") := by
  constructor
  · intro tf h1 h4 h12 h24
    simp [parse_timeframe, h1, h4, h12, h24]
  · intro iv h1 h4 hd
    refine ⟨?_, ?_, ?_⟩
    · simp [bybitIntervalOf, h1, h4, hd]
    · simp [bitgetIntervalOf, h1, h4, hd]
    · simp [binanceOiPeriodOf, h1, h4, hd]

/-- Witness for C9 at the concrete unrecognized label `"5m"`. -/
theorem unrecognized_interval_defaults_witness :
    parse_timeframe "5m" = 1 ∧ bybitIntervalOf "5m" = "60" ∧
      bitgetIntervalOf "5m" = "1H" ∧ binanceOiPeriodOf "5m" = "1h" :=
  ⟨unrecognized_interval_defaults.1 "5m" (by decide) (by decide) (by decide)
      (by decide),
   (unrecognized_interval_defaults.2 "5m" (by decide) (by decide) (by decide)).1,
   (unrecognized_interval_defaults.2 "5m" (by decide) (by decide) (by decide)).2.1,
   (unrecognized_interval_defaults.2 "5m" (by decide) (by decide) (by decide)).2.2⟩

/-- Whether a list of timestamps is strictly ascending. -/
def strictlyAscending : List ℕ → Bool
  | [] => true
  | [_] => true
  | a :: b :: rest => decide (a < b) && strictlyAscending (b :: rest)

/-- A provider whose single short page is in chronological (ascending) order,
which is the native BitGet candle order the code itself documents
(`kline_list[0]` is the oldest entry). -/
def bitgetAscPage : List RawCandle :=
  [⟨3600000, 1, 2, 1, 2, 5, 0⟩, ⟨7200000, 2, 3, 2, 3, 7, 0⟩]

/-- The constant provider returning `bitgetAscPage`. -/
def bitgetAscProvider : Option ℤ → List RawCandle := fun _ => bitgetAscPage

/-- C1: `BitgetConnector.fetch_klines` applied to a provider page in the
ascending order its own pagination logic assumes yields the candles in
descending `open_time` order, not the documented chronological order: the
input page is strictly ascending, the output is `[7200000, 3600000]`. -/
theorem bitget_klines_descending_on_ascending_page :
    strictlyAscending (bitgetAscPage.map RawCandle.ts) = true ∧
    ((bitgetFetchKlines bitgetAscProvider "COAIUSDT" "1h" MarketType.perp
        none (some 10800000) 5).getD []).map Kline.open_time =
      [7200000, 3600000] ∧
    strictlyAscending
      (((bitgetFetchKlines bitgetAscProvider "COAIUSDT" "1h" MarketType.perp
        none (some 10800000) 5).getD []).map Kline.open_time) = false := by
  refine ⟨by decide, by decide, by decide⟩

/-- A provider whose single page holds one candle later than the requested
`end` bound (providers may return out-of-range rows near page boundaries). -/
def binanceLateProvider : Option ℤ → List RawCandle :=
  fun _ => [⟨7200000, 1, 2, 1, 2, 5, 0⟩]

/-- Counterexample to C3: with `start = 0` and `end = 3600000`,
`BinanceConnector.fetch_klines` yields the candle at `open_time = 7200000`,
which violates `open_time ≤ end` — the loop filters only the start side. -/
theorem binance_yields_candle_after_end :
    ((binanceFetchKlines binanceLateProvider "COAIUSDT" "1h" MarketType.spot
        (some 0) (some 3600000) 5).getD []).map Kline.open_time = [7200000] ∧
    ¬ ((7200000 : ℤ) ≤ 3600000) := by
  refine ⟨by decide, by decide⟩

theorem binanceKlinesLoop_start_bound (P : Option ℤ → List RawCandle)
    (sym itv : String) (mt : MarketType) (s : ℤ) :
    ∀ (fuel : ℕ) (endCur : Option ℤ) (acc r : List Kline),
      binanceKlinesLoop P sym itv mt (some s) fuel endCur acc = some r →
      (∀ k ∈ acc, s ≤ (k.open_time : ℤ)) → ∀ k ∈ r, s ≤ (k.open_time : ℤ) := by
  intro fuel
  induction fuel with
  | zero => intro endCur acc r h; simp [binanceKlinesLoop] at h
  | succ fuel ih =>
    intro endCur acc r h hacc
    simp only [binanceKlinesLoop] at h
    by_cases hd : P endCur = []
    · rw [if_pos hd] at h
      cases h
      exact hacc
    · rw [if_neg hd] at h
      have hacc' : ∀ k ∈ acc ++ ((P endCur).filter (fun c =>
          decide (¬ ((c.ts : ℤ) < s)))).map (binanceMkKline sym itv mt),
          s ≤ (k.open_time : ℤ) := by
        intro k hk
        rcases List.mem_append.mp hk with hk | hk
        · exact hacc k hk
        · rcases List.mem_map.mp hk with ⟨c, hc, rfl⟩
          rcases List.mem_filter.mp hc with ⟨_, hcpred⟩
          have hlt : ¬ ((c.ts : ℤ) < s) := by simpa using hcpred
          simpa [binanceMkKline] using le_of_not_lt hlt
      by_cases hlen : (P endCur).length < BINANCE_KLINE_LIMIT
      · rw [if_pos hlen] at h
        cases h
        exact hacc'
      · rw [if_neg hlen] at h
        by_cases hle : (((P endCur).head?.map RawCandle.ts).getD 0 : ℤ) ≤ s
        · rw [if_pos hle] at h
          cases h
          exact hacc'
        · rw [if_neg hle] at h
          exact ih _ _ _ h hacc'

theorem bybitKlinesLoop_start_bound (P : Option ℤ → List RawCandle)
    (sym itv : String) (mt : MarketType) (s : ℤ) :
    ∀ (fuel : ℕ) (endCur : Option ℤ) (acc r : List Kline),
      bybitKlinesLoop P sym itv mt (some s) fuel endCur acc = some r →
      (∀ k ∈ acc, s ≤ (k.open_time : ℤ)) → ∀ k ∈ r, s ≤ (k.open_time : ℤ) := by
  intro fuel
  induction fuel with
  | zero => intro endCur acc r h; simp [bybitKlinesLoop] at h
  | succ fuel ih =>
    intro endCur acc r h hacc
    simp only [bybitKlinesLoop] at h
    by_cases hd : P endCur = []
    · rw [if_pos hd] at h
      cases h
      exact hacc
    · rw [if_neg hd] at h
      have hacc' : ∀ k ∈ acc ++ ((P endCur).filter (fun c =>
          decide (¬ ((c.ts : ℤ) < s)))).map (bybitMkKline sym itv mt),
          s ≤ (k.open_time : ℤ) := by
        intro k hk
        rcases List.mem_append.mp hk with hk | hk
        · exact hacc k hk
        · rcases List.mem_map.mp hk with ⟨c, hc, rfl⟩
          rcases List.mem_filter.mp hc with ⟨_, hcpred⟩
          have hlt : ¬ ((c.ts : ℤ) < s) := by simpa using hcpred
          simpa [bybitMkKline] using le_of_not_lt hlt
      by_cases hlen : (P endCur).length < BYBIT_KLINE_LIMIT
      · rw [if_pos hlen] at h
        cases h
        exact hacc'
      · rw [if_neg hlen] at h
        by_cases hle : (((P endCur).getLast?.map RawCandle.ts).getD 0 : ℤ) ≤ s
        · rw [if_pos hle] at h
          cases h
          exact hacc'
        · rw [if_neg hle] at h
          exact ih _ _ _ h hacc'

theorem bitgetKlinesLoop_start_bound (P : Option ℤ → List RawCandle)
    (sym itv : String) (mt : MarketType) (s : ℤ) :
    ∀ (fuel : ℕ) (endCur : Option ℤ) (acc r : List Kline),
      bitgetKlinesLoop P sym itv mt (some s) fuel endCur acc = some r →
      (∀ k ∈ acc, s ≤ (k.open_time : ℤ)) → ∀ k ∈ r, s ≤ (k.open_time : ℤ) := by
  intro fuel
  induction fuel with
  | zero => intro endCur acc r h; simp [bitgetKlinesLoop] at h
  | succ fuel ih =>
    intro endCur acc r h hacc
    simp only [bitgetKlinesLoop] at h
    by_cases hd : P endCur = []
    · rw [if_pos hd] at h
      cases h
      exact hacc
    · rw [if_neg hd] at h
      have hacc' : ∀ k ∈ acc ++ ((P endCur).filter (fun c =>
          decide (¬ ((c.ts : ℤ) < s)))).map (bitgetMkKline sym itv mt),
          s ≤ (k.open_time : ℤ) := by
        intro k hk
        rcases List.mem_append.mp hk with hk | hk
        · exact hacc k hk
        · rcases List.mem_map.mp hk with ⟨c, hc, rfl⟩
          rcases List.mem_filter.mp hc with ⟨_, hcpred⟩
          have hlt : ¬ ((c.ts : ℤ) < s) := by simpa using hcpred
          simpa [bitgetMkKline] using le_of_not_lt hlt
      by_cases hlen : (P endCur).length < bitgetPageLimit mt
      · rw [if_pos hlen] at h
        cases h
        exact hacc'
      · rw [if_neg hlen] at h
        by_cases hle : (((P endCur).head?.map RawCandle.ts).getD 0 : ℤ) ≤ s
        · rw [if_pos hle] at h
          cases h
          exact hacc'
        · rw [if_neg hle] at h
          exact ih _ _ _ h hacc'

/-- C3 (amended): with a `start` bound given, every yielded candle of every
connector's `fetch_klines` satisfies `start ≤ open_time` — the loops filter
candles before `start` explicitly. (The `end` bound is only passed to the
provider as the `endTime`/`end` request parameter and is not re-checked on
the response.) -/
theorem klines_respect_start_bound :
    ∀ (P : Option ℤ → List RawCandle) (sym itv : String) (mt : MarketType)
      (s : ℤ) (e : Option ℤ) (fuel : ℕ),
      (((binanceFetchKlines P sym itv mt (some s) e fuel).getD []).all
        (fun k => decide (s ≤ (k.open_time : ℤ))) = true) ∧
      (((bybitFetchKlines P sym itv mt (some s) e fuel).getD []).all
        (fun k => decide (s ≤ (k.open_time : ℤ))) = true) ∧
      (((bitgetFetchKlines P sym itv mt (some s) e fuel).getD []).all
        (fun k => decide (s ≤ (k.open_time : ℤ))) = true) := by
  intro P sym itv mt s e fuel
  refine ⟨?_, ?_, ?_⟩
  · rw [binanceFetchKlines]
    cases hres : binanceKlinesLoop P sym itv mt (some s) fuel e [] with
    | none => simp
    | some r =>
      have hall := binanceKlinesLoop_start_bound P sym itv mt s fuel e [] r hres
        (by intro k hk; cases hk)
      simp only [Option.map_some', Option.getD_some, List.all_eq_true]
      intro k hk
      exact decide_eq_true (hall k (mem_isortByLt.mp hk))
  · rw [bybitFetchKlines]
    cases hres : bybitKlinesLoop P sym itv mt (some s) fuel e [] with
    | none => simp
    | some r =>
      have hall := bybitKlinesLoop_start_bound P sym itv mt s fuel e [] r hres
        (by intro k hk; cases hk)
      simp only [Option.map_some', Option.getD_some, List.all_eq_true]
      intro k hk
      exact decide_eq_true (hall k (List.mem_reverse.mp hk))
  · rw [bitgetFetchKlines]
    cases hres : bitgetKlinesLoop P sym itv mt (some s) fuel e [] with
    | none => simp
    | some r =>
      have hall := bitgetKlinesLoop_start_bound P sym itv mt s fuel e [] r hres
        (by intro k hk; cases hk)
      simp only [Option.map_some', Option.getD_some, List.all_eq_true]
      intro k hk
      exact decide_eq_true (hall k (List.mem_reverse.mp hk))

/-- C2: upserting the same kline batch twice leaves the store exactly as
after the first call (hence row count and all values unchanged), and the
store never holds two rows with the same unique key. -/
theorem upsert_klines_idempotent (s : List (KlineKey × KlineVal))
    (b : List Kline) (hnd : (s.map Prod.fst).Nodup) :
    upsert_klines (upsert_klines s b) b = upsert_klines s b ∧
    ((upsert_klines s b).map Prod.fst).Nodup :=
  ⟨upsertBatch_idempotent s _ hnd, nodup_keys_upsertBatch hnd⟩

/-- A kline batch containing two rows with the same unique key and different
values, plus a row with a distinct key. -/
def demoKlineBatch : List Kline :=
  [⟨"binance", .spot, "COAIUSDT", "1h", 0, 1, 2, 1, 2, 10, 0⟩,
   ⟨"bybit", .perp, "COAIUSDT", "1h", 3600000, 1, 2, 1, 2, 5, 0⟩,
   ⟨"binance", .spot, "COAIUSDT", "1h", 0, 3, 4, 3, 4, 20, 0⟩]

/-- Witness for C2 on the empty store and a batch with a duplicated key. -/
theorem upsert_klines_idempotent_witness :
    (([] : List (KlineKey × KlineVal)).map Prod.fst).Nodup ∧
    (upsert_klines (upsert_klines [] demoKlineBatch) demoKlineBatch =
        upsert_klines [] demoKlineBatch ∧
      ((upsert_klines [] demoKlineBatch).map Prod.fst).Nodup) :=
  ⟨List.nodup_nil, upsert_klines_idempotent [] demoKlineBatch List.nodup_nil⟩

theorem binanceKlinesLoop_isSome (P : Option ℤ → List RawCandle)
    (sym itv : String) (mt : MarketType) (startMs : Option ℤ)
    (honors : ∀ (e : ℤ), ∀ c ∈ P (some e), (c.ts : ℤ) ≤ e) :
    ∀ (fuel : ℕ) (e : ℤ) (acc : List Kline), (e + 1).toNat < fuel →
      (binanceKlinesLoop P sym itv mt startMs fuel (some e) acc).isSome = true := by
  intro fuel
  induction fuel with
  | zero => intro e acc h; exact absurd h (Nat.not_lt_zero _)
  | succ fuel ih =>
    intro e acc hfuel
    obtain ⟨c0, rest, hP⟩ | hd :
        (∃ c0 rest, P (some e) = c0 :: rest) ∨ P (some e) = [] := by
      cases hcase : P (some e) with
      | nil => exact Or.inr rfl
      | cons a l => exact Or.inl ⟨a, l, rfl⟩
    case inr => simp only [binanceKlinesLoop]; rw [if_pos hd]; rfl
    have hd : ¬ (P (some e) = []) := by rw [hP]; simp
    have hts : (c0.ts : ℤ) ≤ e :=
      honors e c0 (by rw [hP]; exact List.mem_cons_self _ _)
    have hdec : (((c0.ts : ℤ) - 1) + 1).toNat < fuel := by omega
    by_cases hlen : (P (some e)).length < BINANCE_KLINE_LIMIT
    · simp only [binanceKlinesLoop]
      rw [if_neg hd, if_pos hlen]
      rfl
    · cases startMs with
      | none =>
        simp only [binanceKlinesLoop]
        rw [if_neg hd, if_neg hlen, hP]
        simp only [List.head?_cons, Option.map_some', Option.getD_some]
        exact ih _ _ hdec
      | some s =>
        simp only [binanceKlinesLoop]
        rw [if_neg hd, if_neg hlen, hP]
        simp only [List.head?_cons, Option.map_some', Option.getD_some]
        by_cases hle : (c0.ts : ℤ) ≤ s
        · rw [if_pos hle]; rfl
        · rw [if_neg hle]; exact ih _ _ hdec

theorem bybitKlinesLoop_isSome (P : Option ℤ → List RawCandle)
    (sym itv : String) (mt : MarketType) (startMs : Option ℤ)
    (honors : ∀ (e : ℤ), ∀ c ∈ P (some e), (c.ts : ℤ) ≤ e) :
    ∀ (fuel : ℕ) (e : ℤ) (acc : List Kline), (e + 1).toNat < fuel →
      (bybitKlinesLoop P sym itv mt startMs fuel (some e) acc).isSome = true := by
  intro fuel
  induction fuel with
  | zero => intro e acc h; exact absurd h (Nat.not_lt_zero _)
  | succ fuel ih =>
    intro e acc hfuel
    by_cases hd : P (some e) = []
    · simp only [bybitKlinesLoop]; rw [if_pos hd]; rfl
    obtain ⟨c0, hP⟩ : ∃ c0, (P (some e)).getLast? = some c0 := by
      cases hcase : (P (some e)).getLast? with
      | none => exact absurd (List.getLast?_eq_none_iff.mp hcase) hd
      | some a => exact ⟨a, rfl⟩
    have hts : (c0.ts : ℤ) ≤ e :=
      honors e c0 (List.mem_of_mem_getLast? hP)
    have hdec : (((c0.ts : ℤ) - 1) + 1).toNat < fuel := by omega
    by_cases hlen : (P (some e)).length < BYBIT_KLINE_LIMIT
    · simp only [bybitKlinesLoop]
      rw [if_neg hd, if_pos hlen]
      rfl
    · cases startMs with
      | none =>
        simp only [bybitKlinesLoop]
        rw [if_neg hd, if_neg hlen, hP]
        simp only [Option.map_some', Option.getD_some]
        exact ih _ _ hdec
      | some s =>
        simp only [bybitKlinesLoop]
        rw [if_neg hd, if_neg hlen, hP]
        simp only [Option.map_some', Option.getD_some]
        by_cases hle : (c0.ts : ℤ) ≤ s
        · rw [if_pos hle]; rfl
        · rw [if_neg hle]; exact ih _ _ hdec

theorem bitgetKlinesLoop_isSome (P : Option ℤ → List RawCandle)
    (sym itv : String) (mt : MarketType) (startMs : Option ℤ)
    (honors : ∀ (e : ℤ), ∀ c ∈ P (some e), (c.ts : ℤ) ≤ e) :
    ∀ (fuel : ℕ) (e : ℤ) (acc : List Kline), (e + 1).toNat < fuel →
      (bitgetKlinesLoop P sym itv mt startMs fuel (some e) acc).isSome = true := by
  intro fuel
  induction fuel with
  | zero => intro e acc h; exact absurd h (Nat.not_lt_zero _)
  | succ fuel ih =>
    intro e acc hfuel
    obtain ⟨c0, rest, hP⟩ | hd :
        (∃ c0 rest, P (some e) = c0 :: rest) ∨ P (some e) = [] := by
      cases hcase : P (some e) with
      | nil => exact Or.inr rfl
      | cons a l => exact Or.inl ⟨a, l, rfl⟩
    case inr => simp only [bitgetKlinesLoop]; rw [if_pos hd]; rfl
    have hd : ¬ (P (some e) = []) := by rw [hP]; simp
    have hts : (c0.ts : ℤ) ≤ e :=
      honors e c0 (by rw [hP]; exact List.mem_cons_self _ _)
    have hdec : (((c0.ts : ℤ) - 1) + 1).toNat < fuel := by omega
    by_cases hlen : (P (some e)).length < bitgetPageLimit mt
    · simp only [bitgetKlinesLoop]
      rw [if_neg hd, if_pos hlen]
      rfl
    · cases startMs with
      | none =>
        simp only [bitgetKlinesLoop]
        rw [if_neg hd, if_neg hlen, hP]
        simp only [List.head?_cons, Option.map_some', Option.getD_some]
        exact ih _ _ hdec
      | some s =>
        simp only [bitgetKlinesLoop]
        rw [if_neg hd, if_neg hlen, hP]
        simp only [List.head?_cons, Option.map_some', Option.getD_some]
        by_cases hle : (c0.ts : ℤ) ≤ s
        · rw [if_pos hle]; rfl
        · rw [if_neg hle]; exact ih _ _ hdec

theorem bybitFundingLoop_isSome (P : Option ℤ → List RawFunding)
    (sym : String) (startMs : Option ℤ)
    (honors : ∀ (e : ℤ), ∀ c ∈ P (some e), (c.ts : ℤ) ≤ e) :
    ∀ (fuel : ℕ) (e : ℤ) (acc : List FundingRateRec), (e + 1).toNat < fuel →
      (bybitFundingLoop P sym startMs fuel (some e) acc).isSome = true := by
  intro fuel
  induction fuel with
  | zero => intro e acc h; exact absurd h (Nat.not_lt_zero _)
  | succ fuel ih =>
    intro e acc hfuel
    by_cases hd : P (some e) = []
    · simp only [bybitFundingLoop]; rw [if_pos hd]; rfl
    obtain ⟨c0, hP⟩ : ∃ c0, (P (some e)).getLast? = some c0 := by
      cases hcase : (P (some e)).getLast? with
      | none => exact absurd (List.getLast?_eq_none_iff.mp hcase) hd
      | some a => exact ⟨a, rfl⟩
    have hts : (c0.ts : ℤ) ≤ e :=
      honors e c0 (List.mem_of_mem_getLast? hP)
    have hdec : (((c0.ts : ℤ) - 1) + 1).toNat < fuel := by omega
    by_cases hlen : (P (some e)).length < BYBIT_OI_LIMIT
    · simp only [bybitFundingLoop]
      rw [if_neg hd, if_pos hlen]
      rfl
    · cases startMs with
      | none =>
        simp only [bybitFundingLoop]
        rw [if_neg hd, if_neg hlen, hP]
        simp only [Option.map_some', Option.getD_some]
        exact ih _ _ hdec
      | some s =>
        simp only [bybitFundingLoop]
        rw [if_neg hd, if_neg hlen, hP]
        simp only [Option.map_some', Option.getD_some]
        by_cases hle : (c0.ts : ℤ) ≤ s
        · rw [if_pos hle]; rfl
        · rw [if_neg hle]; exact ih _ _ hdec

theorem binanceOiLoop_isSome (P : Option ℤ → List RawOI)
    (symbol : String) (E : ℤ)
    (honors : ∀ (s : ℤ), ∀ c ∈ P (some s), s ≤ (c.ts : ℤ) ∧ (c.ts : ℤ) ≤ E) :
    ∀ (fuel : ℕ) (s : ℤ) (acc : List OpenInterestRec),
      (E + 1 - s).toNat < fuel →
      (binanceOiLoop P symbol fuel (some s) acc).isSome = true := by
  intro fuel
  induction fuel with
  | zero => intro s acc h; exact absurd h (Nat.not_lt_zero _)
  | succ fuel ih =>
    intro s acc hfuel
    by_cases hd : P (some s) = []
    · simp only [binanceOiLoop]; rw [if_pos hd]; rfl
    obtain ⟨c0, hP⟩ : ∃ c0, (P (some s)).getLast? = some c0 := by
      cases hcase : (P (some s)).getLast? with
      | none => exact absurd (List.getLast?_eq_none_iff.mp hcase) hd
      | some a => exact ⟨a, rfl⟩
    obtain ⟨hts1, hts2⟩ := honors s c0 (List.mem_of_mem_getLast? hP)
    have hdec : (E + 1 - ((c0.ts : ℤ) + 1)).toNat < fuel := by omega
    by_cases hlen : (P (some s)).length < BINANCE_OI_LIMIT
    · simp only [binanceOiLoop]
      rw [if_neg hd, if_pos hlen]
      rfl
    · simp only [binanceOiLoop]
      rw [if_neg hd, if_neg hlen, hP]
      simp only [Option.map_some', Option.getD_some]
      exact ih _ _ hdec

theorem bitgetFundingLoop_isSome (P : ℕ → List RawFunding) (sym : String)
    (startMs endMs : Option ℤ) (n : ℕ)
    (hshort : (P n).length < BITGET_FUNDING_PAGE_SIZE) :
    ∀ (fuel p : ℕ) (acc : List FundingRateRec), p ≤ n → n - p < fuel →
      (bitgetFundingLoop P sym startMs endMs fuel p acc).isSome = true := by
  intro fuel
  induction fuel with
  | zero => intro p acc hpn h; exact absurd h (Nat.not_lt_zero _)
  | succ fuel ih =>
    intro p acc hpn hf
    simp only [bitgetFundingLoop]
    by_cases hd : P p = []
    · rw [if_pos hd]; rfl
    · rw [if_neg hd]
      by_cases hlen : (P p).length < BITGET_FUNDING_PAGE_SIZE
      · rw [if_pos hlen]; rfl
      · rw [if_neg hlen]
        have hne : p ≠ n := by
          intro hEq
          rw [hEq] at hlen
          exact hlen hshort
        exact ih (p + 1) _ (by omega) (by omega)

theorem binanceFundingLoop_isSome (P : Option ℤ → List RawFunding)
    (symbol : String) (E : ℤ)
    (honors : ∀ (s : ℤ), ∀ c ∈ P (some s), s ≤ (c.ts : ℤ) ∧ (c.ts : ℤ) ≤ E) :
    ∀ (fuel : ℕ) (s : ℤ) (acc : List FundingRateRec),
      (E + 1 - s).toNat < fuel →
      (binanceFundingLoop P symbol fuel (some s) acc).isSome = true := by
  intro fuel
  induction fuel with
  | zero => intro s acc h; exact absurd h (Nat.not_lt_zero _)
  | succ fuel ih =>
    intro s acc hfuel
    by_cases hd : P (some s) = []
    · simp only [binanceFundingLoop]; rw [if_pos hd]; rfl
    obtain ⟨c0, hP⟩ : ∃ c0, (P (some s)).getLast? = some c0 := by
      cases hcase : (P (some s)).getLast? with
      | none => exact absurd (List.getLast?_eq_none_iff.mp hcase) hd
      | some a => exact ⟨a, rfl⟩
    obtain ⟨hts1, hts2⟩ := honors s c0 (List.mem_of_mem_getLast? hP)
    have hdec : (E + 1 - ((c0.ts : ℤ) + 1)).toNat < fuel := by omega
    by_cases hlen : (P (some s)).length < BINANCE_KLINE_LIMIT
    · simp only [binanceFundingLoop]
      rw [if_neg hd, if_pos hlen]
      rfl
    · simp only [binanceFundingLoop]
      rw [if_neg hd, if_neg hlen, hP]
      simp only [Option.map_some', Option.getD_some]
      exact ih _ _ hdec

/-- C4: the pagination cursors advance strictly monotonically, so every
connector pagination loop terminates. With `end` given and a provider that
honors the `endTime` request parameter (every returned timestamp is at most
the requested cursor), the backward kline loops of Binance, ByBit and BitGet
and the backward ByBit funding loop return within `end + 2` iterations for
any `start`; the forward Binance open-interest and funding cursors strictly
increase and are bounded by the honored `endTime`, so those loops return
within `end - start + 2` iterations; the BitGet funding loop's page number
increases by one each iteration, so it returns once any page comes back
short. -/
theorem pagination_cursor_terminates :
    (∀ (P : Option ℤ → List RawCandle) (sym itv : String) (mt : MarketType)
       (startMs : Option ℤ) (e : ℤ) (fuel : ℕ),
       (∀ (e' : ℤ), ∀ c ∈ P (some e'), (c.ts : ℤ) ≤ e') →
       (e + 1).toNat < fuel →
       (binanceKlinesLoop P sym itv mt startMs fuel (some e) []).isSome = true) ∧
    (∀ (P : Option ℤ → List RawCandle) (sym itv : String) (mt : MarketType)
       (startMs : Option ℤ) (e : ℤ) (fuel : ℕ),
       (∀ (e' : ℤ), ∀ c ∈ P (some e'), (c.ts : ℤ) ≤ e') →
       (e + 1).toNat < fuel →
       (bybitKlinesLoop P sym itv mt startMs fuel (some e) []).isSome = true) ∧
    (∀ (P : Option ℤ → List RawCandle) (sym itv : String) (mt : MarketType)
       (startMs : Option ℤ) (e : ℤ) (fuel : ℕ),
       (∀ (e' : ℤ), ∀ c ∈ P (some e'), (c.ts : ℤ) ≤ e') →
       (e + 1).toNat < fuel →
       (bitgetKlinesLoop P sym itv mt startMs fuel (some e) []).isSome = true) ∧
    (∀ (P : Option ℤ → List RawOI) (sym : String) (s E : ℤ) (fuel : ℕ),
       (∀ (s' : ℤ), ∀ c ∈ P (some s'), s' ≤ (c.ts : ℤ) ∧ (c.ts : ℤ) ≤ E) →
       (E + 1 - s).toNat < fuel →
       (binanceOiLoop P sym fuel (some s) []).isSome = true) ∧
    (∀ (P : Option ℤ → List RawFunding) (sym : String) (s E : ℤ) (fuel : ℕ),
       (∀ (s' : ℤ), ∀ c ∈ P (some s'), s' ≤ (c.ts : ℤ) ∧ (c.ts : ℤ) ≤ E) →
       (E + 1 - s).toNat < fuel →
       (binanceFundingLoop P sym fuel (some s) []).isSome = true) ∧
    (∀ (P : Option ℤ → List RawFunding) (sym : String) (startMs : Option ℤ)
       (e : ℤ) (fuel : ℕ),
       (∀ (e' : ℤ), ∀ c ∈ P (some e'), (c.ts : ℤ) ≤ e') →
       (e + 1).toNat < fuel →
       (bybitFundingLoop P sym startMs fuel (some e) []).isSome = true) ∧
    (∀ (P : ℕ → List RawFunding) (sym : String) (startMs endMs : Option ℤ)
       (n fuel : ℕ),
       (P n).length < BITGET_FUNDING_PAGE_SIZE → 1 ≤ n → n - 1 < fuel →
       (bitgetFundingLoop P sym startMs endMs fuel 1 []).isSome = true) :=
  ⟨fun P sym itv mt startMs e fuel honors hfuel =>
      binanceKlinesLoop_isSome P sym itv mt startMs honors fuel e [] hfuel,
   fun P sym itv mt startMs e fuel honors hfuel =>
      bybitKlinesLoop_isSome P sym itv mt startMs honors fuel e [] hfuel,
   fun P sym itv mt startMs e fuel honors hfuel =>
      bitgetKlinesLoop_isSome P sym itv mt startMs honors fuel e [] hfuel,
   fun P sym s E fuel honors hfuel =>
      binanceOiLoop_isSome P sym E honors fuel s [] hfuel,
   fun P sym s E fuel honors hfuel =>
      binanceFundingLoop_isSome P sym E honors fuel s [] hfuel,
   fun P sym startMs e fuel honors hfuel =>
      bybitFundingLoop_isSome P sym startMs honors fuel e [] hfuel,
   fun P sym startMs endMs n fuel hshort h1 hf =>
      bitgetFundingLoop_isSome P sym startMs endMs n hshort fuel 1 [] h1 hf⟩

/-- A BitGet funding provider whose first page is full (100 entries) and
whose second page is empty, forcing one page-number advance. -/
def bitgetFundingDemoProvider : ℕ → List RawFunding :=
  fun p => if p = 1 then (List.range 100).map (fun i => ⟨i, 0⟩) else []

/-- Witness for C4: the six cursor loops on the empty provider, and the
BitGet funding loop on a provider whose full first page forces the page
number to advance before the empty second page stops it. -/
theorem pagination_cursor_terminates_witness :
    ((binanceKlinesLoop (fun _ => []) "COAIUSDT" "1h" MarketType.spot none 2
        (some 0) []).isSome = true) ∧
    ((bybitKlinesLoop (fun _ => []) "COAIUSDT" "1h" MarketType.perp none 2
        (some 0) []).isSome = true) ∧
    ((bitgetKlinesLoop (fun _ => []) "COAIUSDT" "1h" MarketType.perp none 2
        (some 0) []).isSome = true) ∧
    ((binanceOiLoop (fun _ => []) "COAIUSDT" 2 (some 0) []).isSome = true) ∧
    ((binanceFundingLoop (fun _ => []) "COAIUSDT" 2 (some 0) []).isSome
      = true) ∧
    ((bybitFundingLoop (fun _ => []) "COAIUSDT" none 2 (some 0) []).isSome
      = true) ∧
    ((bitgetFundingLoop bitgetFundingDemoProvider "COAIUSDT" none none 2 1
        []).isSome = true) :=
  ⟨pagination_cursor_terminates.1 (fun _ => []) "COAIUSDT" "1h"
      MarketType.spot none 0 2 (fun e' c hc => absurd hc (List.not_mem_nil c))
      (by decide),
   pagination_cursor_terminates.2.1 (fun _ => []) "COAIUSDT" "1h"
      MarketType.perp none 0 2 (fun e' c hc => absurd hc (List.not_mem_nil c))
      (by decide),
   pagination_cursor_terminates.2.2.1 (fun _ => []) "COAIUSDT" "1h"
      MarketType.perp none 0 2 (fun e' c hc => absurd hc (List.not_mem_nil c))
      (by decide),
   pagination_cursor_terminates.2.2.2.1 (fun _ => []) "COAIUSDT" 0 0 2
      (fun s' c hc => absurd hc (List.not_mem_nil c)) (by decide),
   pagination_cursor_terminates.2.2.2.2.1 (fun _ => []) "COAIUSDT" 0 0 2
      (fun s' c hc => absurd hc (List.not_mem_nil c)) (by decide),
   pagination_cursor_terminates.2.2.2.2.2.1 (fun _ => []) "COAIUSDT" none 0 2
      (fun e' c hc => absurd hc (List.not_mem_nil c)) (by decide),
   pagination_cursor_terminates.2.2.2.2.2.2 bitgetFundingDemoProvider
      "COAIUSDT" none none 2 2 (by decide) (by decide) (by decide)⟩

/-- Exchange A of the spec's aggregation example:
`volume_total = 100`, `price_delta_pct = +1`, vwap 10. -/
def demoDeltaA : TimeframeDelta := ⟨"1h", 0, 0, 0, 1, 100, none, none, none, 10⟩

/-- Exchange B of the spec's aggregation example:
`volume_total = 300`, `price_delta_pct = +5`, vwap 20. -/
def demoDeltaB : TimeframeDelta := ⟨"1h", 0, 0, 0, 5, 300, none, none, none, 20⟩

/-- A delta with zero volume. -/
def demoDeltaZ : TimeframeDelta := ⟨"1h", 0, 0, 0, 7, 0, none, none, none, 3⟩

/-- Exchange A's per-exchange analysis. -/
def demoAnalysisA : ExchangeAnalysis := ⟨"binance", "perp", [demoDeltaA]⟩

/-- Exchange B's per-exchange analysis. -/
def demoAnalysisB : ExchangeAnalysis := ⟨"bybit", "perp", [demoDeltaB]⟩

/-- C6: the aggregated `price_delta_pct` and `vwap` are the volume-weighted
averages of the per-group values when total volume is positive, and the
unweighted arithmetic means when total volume is zero; the spec's example
`(100, +1%), (300, +5%)` aggregates to exactly 4% (and vwap `(10, 20)` to
`17.5`). -/
theorem aggregation_volume_weighted :
    (∀ (tf : String) (ds : List TimeframeDelta),
      0 < (ds.map TimeframeDelta.volume_total).sum →
      (aggregateForTimeframe tf ds).price_delta_pct =
        (ds.map (fun d => d.price_delta_pct * d.volume_total)).sum /
          (ds.map TimeframeDelta.volume_total).sum ∧
      (aggregateForTimeframe tf ds).vwap =
        (ds.map (fun d => d.vwap * d.volume_total)).sum /
          (ds.map TimeframeDelta.volume_total).sum) ∧
    (∀ (tf : String) (ds : List TimeframeDelta),
      (ds.map TimeframeDelta.volume_total).sum = 0 →
      (aggregateForTimeframe tf ds).price_delta_pct =
        (ds.map TimeframeDelta.price_delta_pct).sum / ds.length ∧
      (aggregateForTimeframe tf ds).vwap =
        (ds.map TimeframeDelta.vwap).sum / ds.length) ∧
    calculate_aggregated_deltas [demoAnalysisA, demoAnalysisB] "perp" =
      some [⟨"1h", 0, 0, 0, 4, 400, none, none, none, 35 / 2⟩] := by
  refine ⟨?_, ?_, ?_⟩
  · intro tf ds h
    constructor <;> simp [aggregateForTimeframe, h]
  · intro tf ds h
    constructor <;> simp [aggregateForTimeframe, h]
  · simp [calculate_aggregated_deltas, aggregateForTimeframe,
      demoAnalysisA, demoAnalysisB, demoDeltaA, demoDeltaB,
      List.filter_cons, List.filter_nil, List.filterMap_cons,
      List.filterMap_nil, List.flatMap_cons, List.flatMap_nil]
    norm_num

/-- Witness for C6 on the spec's example groups and on a zero-volume
group. -/
theorem aggregation_volume_weighted_witness :
    (0 < (([demoDeltaA, demoDeltaB]).map TimeframeDelta.volume_total).sum ∧
      ((aggregateForTimeframe "1h" [demoDeltaA, demoDeltaB]).price_delta_pct =
        (([demoDeltaA, demoDeltaB]).map
          (fun d => d.price_delta_pct * d.volume_total)).sum /
          (([demoDeltaA, demoDeltaB]).map TimeframeDelta.volume_total).sum ∧
      (aggregateForTimeframe "1h" [demoDeltaA, demoDeltaB]).vwap =
        (([demoDeltaA, demoDeltaB]).map
          (fun d => d.vwap * d.volume_total)).sum /
          (([demoDeltaA, demoDeltaB]).map TimeframeDelta.volume_total).sum)) ∧
    ((([demoDeltaZ]).map TimeframeDelta.volume_total).sum = 0 ∧
      ((aggregateForTimeframe "1h" [demoDeltaZ]).price_delta_pct =
        (([demoDeltaZ]).map TimeframeDelta.price_delta_pct).sum /
          ([demoDeltaZ] : List TimeframeDelta).length ∧
      (aggregateForTimeframe "1h" [demoDeltaZ]).vwap =
        (([demoDeltaZ]).map TimeframeDelta.vwap).sum /
          ([demoDeltaZ] : List TimeframeDelta).length)) :=
  ⟨⟨by norm_num [demoDeltaA, demoDeltaB],
    aggregation_volume_weighted.1 "1h" [demoDeltaA, demoDeltaB]
      (by norm_num [demoDeltaA, demoDeltaB])⟩,
   ⟨by norm_num [demoDeltaZ],
    aggregation_volume_weighted.2.1 "1h" [demoDeltaZ]
      (by norm_num [demoDeltaZ])⟩⟩

/-- Twenty-four hourly candles spanning `[0, 24]` (open times 0 to 23, each
covering one hour), unit volume, open 1, high 3, low 1, close 2. -/
def hourlyDayCandles : List CandleRow :=
  [⟨"binance", "perp", "COAIUSDT", 0, 1, 3, 1, 2, 1, 0⟩,
   ⟨"binance", "perp", "COAIUSDT", 1, 1, 3, 1, 2, 1, 0⟩,
   ⟨"binance", "perp", "COAIUSDT", 2, 1, 3, 1, 2, 1, 0⟩,
   ⟨"binance", "perp", "COAIUSDT", 3, 1, 3, 1, 2, 1, 0⟩,
   ⟨"binance", "perp", "COAIUSDT", 4, 1, 3, 1, 2, 1, 0⟩,
   ⟨"binance", "perp", "COAIUSDT", 5, 1, 3, 1, 2, 1, 0⟩,
   ⟨"binance", "perp", "COAIUSDT", 6, 1, 3, 1, 2, 1, 0⟩,
   ⟨"binance", "perp", "COAIUSDT", 7, 1, 3, 1, 2, 1, 0⟩,
   ⟨"binance", "perp", "COAIUSDT", 8, 1, 3, 1, 2, 1, 0⟩,
   ⟨"binance", "perp", "COAIUSDT", 9, 1, 3, 1, 2, 1, 0⟩,
   ⟨"binance", "perp", "COAIUSDT", 10, 1, 3, 1, 2, 1, 0⟩,
   ⟨"binance", "perp", "COAIUSDT", 11, 1, 3, 1, 2, 1, 0⟩,
   ⟨"binance", "perp", "COAIUSDT", 12, 1, 3, 1, 2, 1, 0⟩,
   ⟨"binance", "perp", "COAIUSDT", 13, 1, 3, 1, 2, 1, 0⟩,
   ⟨"binance", "perp", "COAIUSDT", 14, 1, 3, 1, 2, 1, 0⟩,
   ⟨"binance", "perp", "COAIUSDT", 15, 1, 3, 1, 2, 1, 0⟩,
   ⟨"binance", "perp", "COAIUSDT", 16, 1, 3, 1, 2, 1, 0⟩,
   ⟨"binance", "perp", "COAIUSDT", 17, 1, 3, 1, 2, 1, 0⟩,
   ⟨"binance", "perp", "COAIUSDT", 18, 1, 3, 1, 2, 1, 0⟩,
   ⟨"binance", "perp", "COAIUSDT", 19, 1, 3, 1, 2, 1, 0⟩,
   ⟨"binance", "perp", "COAIUSDT", 20, 1, 3, 1, 2, 1, 0⟩,
   ⟨"binance", "perp", "COAIUSDT", 21, 1, 3, 1, 2, 1, 0⟩,
   ⟨"binance", "perp", "COAIUSDT", 22, 1, 3, 1, 2, 1, 0⟩,
   ⟨"binance", "perp", "COAIUSDT", 23, 1, 3, 1, 2, 1, 0⟩]

/-- C7: the per-timeframe delta is computed over exactly the candles with
`open_time` in `[max(start_time, end_time − d), end_time]`, bounds inclusive
(the result is `none` exactly when that window is empty, and `volume_total`
sums exactly that window); a `24h` request over the exactly-24-hour range
`[0, 24]` with hourly candles uses the entire range, and a window with no
candles yields `none` rather than an error or placeholder. -/
theorem timeframe_window_clamped :
    (∀ (kl : List CandleRow) (oi : List OIRow) (tf : String) (s e : ℚ),
      (calcTimeframeDelta kl oi tf s e = none ↔ spec_window kl tf s e = [])) ∧
    (∀ (kl : List CandleRow) (oi : List OIRow) (tf : String) (s e : ℚ),
      (calcTimeframeDelta kl oi tf s e).elim True
        (fun δ => δ.volume_total =
          ((spec_window kl tf s e).map CandleRow.volume).sum)) ∧
    calcTimeframeDelta hourlyDayCandles [] "24h" 0 24 =
      some ⟨"24h", 1, 2, 1, 100, 24, none, none, none, 2⟩ ∧
    calcTimeframeDelta [⟨"binance", "perp", "COAIUSDT", 10, 1, 3, 1, 2, 1, 0⟩]
      [] "1h" 0 24 = none := by
  refine ⟨?_, ?_, ?_, ?_⟩
  · intro kl oi tf s e
    have hw := code_window_eq_spec kl tf s e
    simp only [calcTimeframeDelta]
    rw [hw]
    by_cases hc : isortByLt (fun a b => decide (a.open_time < b.open_time))
        (spec_window kl tf s e) = []
    · rw [dif_pos hc]
      exact iff_of_true rfl (isortByLt_eq_nil_iff.mp hc)
    · rw [dif_neg hc]
      refine iff_of_false (by simp) ?_
      intro hh
      exact hc (by rw [hh]; rfl)
  · intro kl oi tf s e
    have hw := code_window_eq_spec kl tf s e
    simp only [calcTimeframeDelta]
    rw [hw]
    by_cases hc : isortByLt (fun a b => decide (a.open_time < b.open_time))
        (spec_window kl tf s e) = []
    · rw [dif_pos hc]
      exact trivial
    · rw [dif_neg hc]
      simp only [Option.elim_some]
      exact isortByLt_map_sum _ _ _
  · simp [calcTimeframeDelta, hourlyDayCandles, parse_timeframe,
      isortByLt, insertByLt, List.filter_cons, List.filter_nil]
    norm_num
    simp
  · simp [calcTimeframeDelta, parse_timeframe, isortByLt, insertByLt,
      List.filter_cons, List.filter_nil]
    norm_num
    rfl

/-- Two exchanges reporting a constant funding rate of `0.0001` at two
funding times. -/
def constFundingRows : List FundingRow :=
  [⟨"binance", 0, 1 / 10000⟩, ⟨"bybit", 0, 1 / 10000⟩,
   ⟨"binance", 8, 1 / 10000⟩, ⟨"bybit", 8, 1 / 10000⟩]

/-- Funding rows whose per-timestamp-first average (`0.00045`) differs from
the pooled average of all rows (`0.0004`). -/
def mixedFundingRows : List FundingRow :=
  [⟨"binance", 0, 2 / 10000⟩, ⟨"bybit", 0, 4 / 10000⟩,
   ⟨"binance", 8, 6 / 10000⟩]

/-- C8: funding statistics average across exchanges per timestamp first, then
across the window, and annualize as `rate × 3 × 365 × 100` (3 periods per
day); a constant rate of `0.0001` annualizes to exactly `10.95`, and the
mixed example confirms the per-timestamp-first order of averaging. -/
theorem funding_stats_annualized :
    (∀ (frs : List FundingRow) (p : ℚ × ℚ),
      get_latest_funding_stats frs = some p → p.2 = p.1 * 3 * 365 * 100) ∧
    (∀ (frs : List FundingRow) (w : ℕ) (x : ℚ × ℚ × ℚ),
      x ∈ calculate_rolling_avg_funding frs w → x.2.2 = x.2.1 * 3 * 365 * 100) ∧
    get_latest_funding_stats constFundingRows = some (1 / 10000, 1095 / 100) ∧
    get_latest_funding_stats mixedFundingRows = some (9 / 20000, 1971 / 40) ∧
    calculate_rolling_avg_funding constFundingRows 3 =
      [(0, 1 / 10000, 1095 / 100), (8, 1 / 10000, 1095 / 100)] := by
  refine ⟨?_, ?_, ?_, ?_, ?_⟩
  · intro frs p h
    by_cases hfrs : frs = []
    · rw [get_latest_funding_stats, if_pos hfrs] at h; cases h
    · rw [get_latest_funding_stats, if_neg hfrs] at h
      cases h
      rfl
  · intro frs w x hx
    by_cases hfrs : frs = []
    · rw [calculate_rolling_avg_funding, if_pos hfrs] at hx; cases hx
    · rw [calculate_rolling_avg_funding, if_neg hfrs] at hx
      obtain ⟨pr, hpr, rfl⟩ := List.mem_map.mp hx
      rfl
  · simp [get_latest_funding_stats, fundingTimes, constFundingRows,
      isortByLt, insertByLt, List.eraseDups, List.eraseDups.loop,
      List.filter_cons, List.filter_nil]
    norm_num [perTimestampAvg, ratesAt, listMean, List.eraseDups,
      List.eraseDups.loop, List.filter_cons, List.filter_nil]
    simp
    norm_num
  · simp [get_latest_funding_stats, fundingTimes, mixedFundingRows,
      isortByLt, insertByLt, List.eraseDups, List.eraseDups.loop,
      List.filter_cons, List.filter_nil]
    norm_num [perTimestampAvg, ratesAt, listMean, List.eraseDups,
      List.eraseDups.loop, List.filter_cons, List.filter_nil]
    simp
    norm_num
  · simp [calculate_rolling_avg_funding, rollingMeans, fundingTimes,
      constFundingRows, isortByLt, insertByLt, List.eraseDups,
      List.eraseDups.loop, List.filter_cons, List.filter_nil,
      List.range_succ]
    norm_num [perTimestampAvg, ratesAt, listMean, List.eraseDups,
      List.eraseDups.loop, List.filter_cons, List.filter_nil]
    simp [List.range_succ]
    norm_num

/-- Witness for C8 instantiating the annualization relations at the constant
example. -/
theorem funding_stats_annualized_witness :
    ((1095 : ℚ) / 100 = 1 / 10000 * 3 * 365 * 100) ∧
    ((1095 : ℚ) / 100 = 1 / 10000 * 3 * 365 * 100 ∧
      get_latest_funding_stats constFundingRows =
        some (1 / 10000, 1095 / 100)) :=
  ⟨funding_stats_annualized.1 constFundingRows (1 / 10000, 1095 / 100)
      funding_stats_annualized.2.2.1,
   ⟨funding_stats_annualized.2.1 constFundingRows 3 (0, 1 / 10000, 1095 / 100)
      (by rw [funding_stats_annualized.2.2.2.2]; exact List.mem_cons_self _ _),
    funding_stats_annualized.2.2.1⟩⟩

theorem calculate_aggregated_deltas_labels (eas : List ExchangeAnalysis)
    (mt : String) :
    ((calculate_aggregated_deltas eas mt).getD []).all
      (fun δ => decide (δ.timeframe = "1h" ∨ δ.timeframe = "4h" ∨
        δ.timeframe = "12h" ∨ δ.timeframe = "24h")) = true := by
  rw [calculate_aggregated_deltas]
  dsimp only
  split
  · rfl
  · split
    · rfl
    · simp only [Option.getD_some]
      rw [List.all_eq_true]
      intro δ hδ
      obtain ⟨tf, htf, hf⟩ := List.mem_filterMap.mp hδ
      have ht : δ.timeframe = tf := by
        split at hf
        · cases hf
        · cases hf; simp [aggregateForTimeframe]
      have htf' : tf = "1h" ∨ tf = "4h" ∨ tf = "12h" ∨ tf = "24h" := by
        simpa using htf
      rcases htf' with h | h | h | h <;> simp [ht, h]

theorem calculate_aggregated_deltas_none_of_labels
    (eas : List ExchangeAnalysis) (mt : String)
    (h : ∀ ea ∈ eas, ∀ d ∈ ea.timeframe_deltas,
      d.timeframe ≠ "1h" ∧ d.timeframe ≠ "4h" ∧ d.timeframe ≠ "12h" ∧
        d.timeframe ≠ "24h") :
    calculate_aggregated_deltas eas mt = none := by
  rw [calculate_aggregated_deltas]
  dsimp only
  split
  · rfl
  · have hagg : ∀ tf ∈ (["1h", "4h", "12h", "24h"] : List String),
        ((eas.filter (fun ea => decide (ea.market_type = mt))).flatMap
          (fun ea => ea.timeframe_deltas.filter
            (fun d => decide (d.timeframe = tf)))) = [] := by
      intro tf htf
      rw [List.eq_nil_iff_forall_not_mem]
      intro d hd
      obtain ⟨ea, hea, hdf⟩ := List.mem_flatMap.mp hd
      obtain ⟨hdm, hdt⟩ := List.mem_filter.mp hdf
      have hlab : d.timeframe = tf := by simpa using hdt
      have hea' : ea ∈ eas := (List.mem_filter.mp hea).1
      have h4 := h ea hea' d hdm
      rcases (by simpa using htf :
          tf = "1h" ∨ tf = "4h" ∨ tf = "12h" ∨ tf = "24h") with h' | h' | h' | h'
      · exact h4.1 (hlab.trans h')
      · exact h4.2.1 (hlab.trans h')
      · exact h4.2.2.1 (hlab.trans h')
      · exact h4.2.2.2 (hlab.trans h')
    split
    · rfl
    · next hne =>
      exfalso
      apply hne
      rw [List.filterMap_eq_nil_iff]
      intro tf htf
      rw [hagg tf htf]
      rfl

/-- Three perpetual candles of one exchange over `[0, 2]`. -/
def demoPerpCandles : List CandleRow :=
  [⟨"binance", "perp", "COAIUSDT", 0, 1, 3, 1, 2, 1, 0⟩,
   ⟨"binance", "perp", "COAIUSDT", 1, 1, 3, 1, 2, 1, 0⟩,
   ⟨"binance", "perp", "COAIUSDT", 2, 1, 3, 1, 2, 1, 0⟩]

/-- C10: every delta produced by cross-exchange aggregation carries one of
the four fixed labels `1h, 4h, 12h, 24h`, for every analysis result of
`calculate_deltas` with any custom timeframe list; a `"2h"` delta produced by
`calculate_deltas` (which accepts arbitrary labels) is silently excluded —
the aggregation returns `none`. -/
theorem aggregated_labels_fixed :
    (∀ (klines : List CandleRow) (oi : List OIRow) (s e : ℚ)
       (tfs : Option (List String)) (mt : String),
      ((calculate_aggregated_deltas
          (calculate_deltas klines oi s e tfs).exchange_analyses mt).getD
        []).all
        (fun δ => decide (δ.timeframe = "1h" ∨ δ.timeframe = "4h" ∨
          δ.timeframe = "12h" ∨ δ.timeframe = "24h")) = true) ∧
    (calculate_deltas demoPerpCandles [] 0 2
        (some ["2h"])).exchange_analyses.map
      (fun ea => ea.timeframe_deltas.map TimeframeDelta.timeframe) = [["2h"]] ∧
    calculate_aggregated_deltas
      (calculate_deltas demoPerpCandles [] 0 2
        (some ["2h"])).exchange_analyses "perp" = none := by
  have hmap : (calculate_deltas demoPerpCandles [] 0 2
      (some ["2h"])).exchange_analyses.map
      (fun ea => ea.timeframe_deltas.map TimeframeDelta.timeframe) =
      [["2h"]] := by
    simp [calculate_deltas, demoPerpCandles, groupKeys, isortByLt,
      insertByLt, List.eraseDups, List.eraseDups.loop, calcTimeframeDelta,
      parse_timeframe, List.filter_cons, List.filter_nil,
      List.filterMap_cons, List.filterMap_nil, isortByLt_eq_nil_iff]
    norm_num
  refine ⟨?_, hmap, ?_⟩
  · intro klines oi s e tfs mt
    exact calculate_aggregated_deltas_labels _ mt
  · apply calculate_aggregated_deltas_none_of_labels
    intro ea hea d hd
    have hfe : ea.timeframe_deltas.map TimeframeDelta.timeframe ∈
        [(["2h"] : List String)] := by
      rw [← hmap]
      exact List.mem_map_of_mem _ hea
    have hlabels : ea.timeframe_deltas.map TimeframeDelta.timeframe =
        ["2h"] := by simpa using hfe
    have hdt : d.timeframe ∈ (["2h"] : List String) := by
      rw [← hlabels]
      exact List.mem_map_of_mem _ hd
    have hd2 : d.timeframe = "2h" := by simpa using hdt
    simp [hd2]

end LiquidityMapping
